import Mathlib

/-!
Shallow embedding of the sympl contract-enforcement / data-marshalling layer
and of its explicit time integrators, translated from the Python sources
(`sympl/_core/checks.py`, `combine_properties.py`, `wildcard.py`,
`get_np_arrays.py`, `restore_dataarray.py`, `state.py`,
`sympl/_components/timesteppers.py`).

Modelling conventions:
* Python dicts are association lists (`Dict α`) preserving insertion order;
  dictionary assignment updates an existing key in place or appends.
* Numeric array entries and float scalars are rationals (`ℚ`): the embedding
  works in exact real arithmetic, so float literals such as `1.0/3` denote the
  exact rational `1/3`.
* Fallible code returns `Except Err`, with one `Err` constructor per Python
  exception site whose payload the development inspects; other exceptions
  carry their message string.
* Python `set` objects are represented by plain `List String` values with set
  operations defined through membership; since Python's set iteration order is
  unspecified, every theorem about a set-valued output is stated through
  membership, never through the order of the resulting list.
-/

namespace Sympl

/-- An insertion-ordered dictionary, the model of a Python `dict` with
string keys. -/
abbrev Dict (α : Type) := List (String × α)

/-- The keys of a dictionary, in insertion order (Python `d.keys()`). -/
def Dict.keys {α : Type} (d : Dict α) : List String := d.map Prod.fst

/-- Dictionary membership test (Python `k in d`). -/
def Dict.hasKey {α : Type} (d : Dict α) (k : String) : Bool :=
  d.any (fun p => p.1 == k)

/-- Dictionary lookup (Python `d[k]`, as an `Option`). -/
def Dict.lookup {α : Type} (d : Dict α) (k : String) : Option α :=
  List.lookup k d

/-- Dictionary assignment `d[k] = v`: replace the value if `k` is present,
append the binding otherwise. -/
def Dict.set {α : Type} (d : Dict α) (k : String) (v : α) : Dict α :=
  if d.hasKey k then d.map (fun p => if p.1 == k then (k, v) else p)
  else d ++ [(k, v)]

/-- Errors raised by the embedded code.  Constructors carry structured
payloads where a claim inspects the content of the exception message. -/
inductive Err where
  /-- `InvalidPropertyDictError` with an uninspected message. -/
  | invalidPropertyDict (msg : String)
  /-- `InvalidStateError` with an uninspected message. -/
  | invalidState (msg : String)
  /-- `InvalidStateError("Missing input quantity {name}")` raised by
  `InputChecker.check_inputs`; the payload is the one quantity name that
  appears in the message. -/
  | missingInputQuantity (name : String)
  /-- `ComponentMissingOutputError` whose message joins the given quantity
  names (the Python code joins a `set`, so only membership is meaningful). -/
  | missingOutputs (names : List String)
  /-- `ComponentExtraOutputError` whose message joins the given quantity
  names. -/
  | extraOutputs (names : List String)
  /-- `InvalidPropertyDictError` from `check_array_shape`: rank of the
  returned array does not match its declared dims; names the quantity and
  both the actual shape and the expected dims. -/
  | shapeMismatchRank (name : String) (shape : List Nat) (dims : List String)
  /-- `InvalidPropertyDictError` from `check_array_shape`: a dimension's
  length disagrees with the dimension-length table; names the dimension, the
  quantity and both lengths. -/
  | shapeMismatchDim (dim name : String) (length expected : Nat)
  /-- Python `KeyError`. -/
  | keyError (key : String)
  /-- Python `ValueError` with the given message. -/
  | valueError (msg : String)
  /-- Python `TypeError`. -/
  | typeError (msg : String)
  /-- Python `RuntimeError`. -/
  | runtimeError (msg : String)
  /-- pint `UndefinedUnitError` for an unparseable unit string. -/
  | undefinedUnit (unit : String)
  /-- pint `DimensionalityError` between two unit strings. -/
  | dimensionality (u1 u2 : String)
  deriving DecidableEq, Repr

/-- A single entry of a sympl property dictionary: the optional `dims`,
`units` and `alias` fields (`None` models an absent key). -/
structure PropM where
  dims? : Option (List String)
  units? : Option String
  alias? : Option String
  deriving DecidableEq, Repr

/-- A bare numeric buffer: a shape together with its row-major flat data. -/
structure NArr where
  shape : List Nat
  data : List ℚ
  deriving DecidableEq, Repr

/-- The model of a sympl `DataArray`: dimension labels, the underlying
buffer, and the optional `attrs["units"]` entry. -/
structure DataArrayM where
  dims : List String
  arr : NArr
  unitsAttr : Option String
  deriving DecidableEq, Repr

/-! ## `sympl/_core/checks.py` — `InputChecker.check_inputs` -/

/-- `InputChecker.check_inputs`: iterate over the declared input quantities
in declaration order and raise `InvalidStateError("Missing input quantity
{key}")` at the first declared key absent from the state. -/
def check_inputs (input_properties : Dict PropM) (state : Dict DataArrayM) :
    Except Err Unit :=
  match input_properties.keys.find? (fun key => ¬ state.hasKey key) with
  | some key => .error (.missingInputQuantity key)
  | none => .ok ()

/-! ## `sympl/_core/combine_properties.py` — `combine_dims` -/

/-- Python set union over list-represented sets (membership only; Python's
iteration order over a set is unspecified, this embedding keeps
first-argument-first order). -/
def setUnion (a b : List String) : List String :=
  a ++ b.filter (fun d => ¬ a.contains d)

/-- Python set equality over list-represented sets. -/
def setEqB (a b : List String) : Bool :=
  a.all (fun d => b.contains d) && b.all (fun d => a.contains d)

/-- `combine_dims(dims1, dims2)`: merge two dims specifications.  Translated
line by line from the source; in particular `shared` mirrors the source
expression `set(dims2).intersection(dims2)`, which intersects `dims2` with
itself, and the single-wildcard branches return `unmatched` without
re-inserting the `"*"` token. -/
def combine_dims (dims1 dims2 : List String) : Except Err (List String) :=
  if dims1 = dims2 then .ok dims1
  else
    if "*" ∈ dims1 ∧ "*" ∈ dims2 then
      .ok ("*" :: setUnion (dims1.filter (fun d => d ≠ "*"))
        (dims2.filter (fun d => d ≠ "*")))
    else if "*" ∉ dims1 ∧ "*" ∉ dims2 then
      if ¬ setEqB (dims2.filter (fun d => d ≠ "*"))
            (dims1.filter (fun d => d ≠ "*")) ∨
          ¬ setEqB (dims2.filter (fun d => d ≠ "*"))
            (dims2.filter (fun d => d ≠ "*")) then
        .error (.invalidPropertyDict "dims are incompatible")
      else .ok (setUnion (dims1.filter (fun d => d ≠ "*"))
        (dims2.filter (fun d => d ≠ "*")))
    else if "*" ∈ dims1 then
      if ¬ setEqB (dims2.filter (fun d => d ≠ "*"))
          (dims2.filter (fun d => d ≠ "*")) then
        .error (.invalidPropertyDict "dims are incompatible")
      else .ok (setUnion (dims1.filter (fun d => d ≠ "*"))
        (dims2.filter (fun d => d ≠ "*")))
    else
      if ¬ setEqB (dims2.filter (fun d => d ≠ "*"))
          (dims1.filter (fun d => d ≠ "*")) then
        .error (.invalidPropertyDict "dims are incompatible")
      else .ok (setUnion (dims1.filter (fun d => d ≠ "*"))
        (dims2.filter (fun d => d ≠ "*")))

/-! ## `sympl/_core/checks.py` — `OutputChecker` and `check_array_shape` -/

/-- `OutputChecker._wanted_output_aliases`: for every declared output
quantity, the list of acceptable raw-buffer aliases (the output property's
own alias, then the companion input property's alias). -/
def wanted_output_aliases (output_properties input_properties : Dict PropM) :
    Dict (List String) :=
  output_properties.map (fun p =>
    (p.1,
      (match p.2.alias? with | some a => [a] | none => []) ++
      (match (input_properties.lookup p.1).bind (fun q => q.alias?) with
       | some a => [a] | none => [])))

/-- `OutputChecker._check_missing_outputs`: collect every declared quantity
absent from the raw output dict under both its name and all its aliases, and
raise a single `ComponentMissingOutputError` naming all of them. -/
def check_missing_outputs (wanted : Dict (List String)) (outputs : Dict NArr) :
    Except Err Unit :=
  let missing := Dict.keys (wanted.filter (fun p =>
    ¬ outputs.hasKey p.1 ∧ ¬ p.2.any (fun a => outputs.hasKey a)))
  if missing ≠ [] then .error (.missingOutputs missing) else .ok ()

/-- `OutputChecker._check_extra_outputs`: collect every raw-output key that
is neither a declared name nor a declared alias, and raise a single
`ComponentExtraOutputError` naming all of them. -/
def check_extra_outputs (wanted : Dict (List String)) (outputs : Dict NArr) :
    Except Err Unit :=
  let wantedSet := wanted.keys ++ wanted.flatMap (fun p => p.2)
  let extra := outputs.keys.filter (fun k => ¬ wantedSet.contains k)
  if extra ≠ [] then .error (.extraOutputs extra) else .ok ()

/-- `OutputChecker.check_outputs`: the missing check runs first, then the
extra check. -/
def check_outputs (output_properties input_properties : Dict PropM)
    (outputs : Dict NArr) : Except Err Unit :=
  match check_missing_outputs
      (wanted_output_aliases output_properties input_properties) outputs with
  | .error e => .error e
  | .ok () => check_extra_outputs
      (wanted_output_aliases output_properties input_properties) outputs

/-- `check_array_shape(out_dims, raw_array, name, dim_lengths)`: the rank
must equal the number of declared dims, and every dimension with an entry in
the dimension-length table must have that length. -/
def check_array_shape (out_dims : List String) (raw_array : NArr)
    (name : String) (dim_lengths : Dict Nat) : Except Err Unit :=
  if out_dims.length ≠ raw_array.shape.length then
    .error (.shapeMismatchRank name raw_array.shape out_dims)
  else
    match (out_dims.zip raw_array.shape).find? (fun p =>
        match dim_lengths.lookup p.1 with
        | some l => l ≠ p.2
        | none => false) with
    | some p =>
      .error (.shapeMismatchDim p.1 name p.2 ((dim_lengths.lookup p.1).getD 0))
    | none => .ok ()

/-! ## General list helpers -/

/-- `find?` returns the head of the filtered list. -/
theorem find?_eq_filter_head {α : Type} (p : α → Bool) (l : List α) :
    l.find? p = (l.filter p).head? := by
  induction l with
  | nil => rfl
  | cons a t ih =>
    cases h : p a with
    | false =>
      rw [List.find?_cons_of_neg _ (by simp [h]),
        List.filter_cons_of_neg (by simp [h]), ih]
    | true =>
      rw [List.find?_cons_of_pos _ h, List.filter_cons_of_pos h]
      rfl

/-- Membership in `setUnion` is plain union membership. -/
theorem mem_setUnion {a b : List String} {d : String} :
    d ∈ setUnion a b ↔ d ∈ a ∨ d ∈ b := by
  simp only [setUnion, List.mem_append, List.mem_filter]
  constructor
  · rintro (h | ⟨h, -⟩) <;> [exact Or.inl h; exact Or.inr h]
  · rintro (h | h)
    · exact Or.inl h
    · by_cases ha : d ∈ a
      · exact Or.inl ha
      · exact Or.inr ⟨h, by simpa using ha⟩

/-- `setEqB` is extensional set equality. -/
theorem setEqB_iff {a b : List String} :
    setEqB a b = true ↔ ∀ d, d ∈ a ↔ d ∈ b := by
  simp only [setEqB, Bool.and_eq_true, List.all_eq_true]
  constructor
  · rintro ⟨h1, h2⟩ d
    constructor
    · intro hd; simpa using h1 d hd
    · intro hd; simpa using h2 d hd
  · intro h
    exact ⟨fun d hd => by simpa using (h d).1 hd,
           fun d hd => by simpa using (h d).2 hd⟩

/-! ## Claim C1 -/

/-- C1: the pre-call inflow check does not name every absent declared
quantity at once.  With inputs `x` and `y` both absent from an empty state,
`check_inputs` raises an error naming only `x`, although `y` is also a
declared quantity absent from the state. -/
theorem C1_counterexample :
    check_inputs [("x", ⟨none, none, none⟩), ("y", ⟨none, none, none⟩)]
        ([] : Dict DataArrayM) =
      .error (.missingInputQuantity "x") ∧
    "y" ∈ Dict.keys [("x", (⟨none, none, none⟩ : PropM)),
        ("y", ⟨none, none, none⟩)] ∧
    ¬ Dict.hasKey ([] : Dict DataArrayM) "y" ∧ "y" ≠ "x" := by
  refine ⟨rfl, by simp [Dict.keys], by simp [Dict.hasKey], by decide⟩

/-- C1 (amended): for every component input declaration and state, if at
least one declared input quantity is missing from the state then the
pre-call inflow check raises a single missing-quantity error naming only the
first absent declared quantity in declaration order; if none is missing it
passes. -/
theorem C1_first_missing_only (input_properties : Dict PropM)
    (state : Dict DataArrayM) :
    ((Dict.keys input_properties).filter
        (fun key => ¬ state.hasKey key) = [] →
      check_inputs input_properties state = .ok ()) ∧
    (∀ k rest,
      (Dict.keys input_properties).filter
          (fun key => ¬ state.hasKey key) = k :: rest →
      check_inputs input_properties state =
        .error (.missingInputQuantity k)) := by
  constructor
  · intro h
    unfold check_inputs
    rw [find?_eq_filter_head, h]
    rfl
  · intro k rest h
    unfold check_inputs
    rw [find?_eq_filter_head, h]
    rfl

/-- Witness for C1 (amended): a declaration with inputs `x`, `y` and a state
containing only `y` yields the error naming `x`. -/
theorem C1_first_missing_only_witness :
    check_inputs [("x", ⟨none, none, none⟩), ("y", ⟨none, none, none⟩)]
        [("y", ⟨["a"], ⟨[2], [0, 0]⟩, some "m"⟩)] =
      .error (.missingInputQuantity "x") :=
  (C1_first_missing_only [("x", ⟨none, none, none⟩), ("y", ⟨none, none, none⟩)]
    [("y", ⟨["a"], ⟨[2], [0, 0]⟩, some "m"⟩)]).2 "x" [] (by decide)

/-! ## Claim C2 -/

/-- C2: combining a wildcard-only dims specification with an explicit one
succeeds, but the combined result `["a"]` does not contain the wildcard
token at all, so the wildcard is not kept in its original relative
position. -/
theorem C2_counterexample :
    combine_dims ["*"] ["a"] = .ok ["a"] ∧ "*" ∉ ["a"] := by
  constructor
  · rfl
  · decide

/-- C2 (amended): for two different dims specifications of which exactly one
contains the wildcard token, combining never keeps the wildcard: when the
wildcard specification is the first argument the combination always
succeeds, and when it is the second argument it succeeds exactly when the
two sets of explicit names coincide; in every success case the result is the
union of the two specifications' non-wildcard dimension names, with the
wildcard token dropped. -/
theorem C2_one_wildcard_combination (dims1 dims2 : List String)
    (hne : dims1 ≠ dims2) :
    ("*" ∈ dims1 → "*" ∉ dims2 →
      ∃ out, combine_dims dims1 dims2 = .ok out ∧
        ∀ d, d ∈ out ↔ ((d ∈ dims1 ∨ d ∈ dims2) ∧ d ≠ "*")) ∧
    ("*" ∉ dims1 → "*" ∈ dims2 →
      ((∀ d, d ≠ "*" → (d ∈ dims2 ↔ d ∈ dims1)) →
        ∃ out, combine_dims dims1 dims2 = .ok out ∧
          ∀ d, d ∈ out ↔ ((d ∈ dims1 ∨ d ∈ dims2) ∧ d ≠ "*")) ∧
      ((¬ ∀ d, d ≠ "*" → (d ∈ dims2 ↔ d ∈ dims1)) →
        combine_dims dims1 dims2 =
          .error (.invalidPropertyDict "dims are incompatible"))) := by
  have hmem_union : ∀ d,
      d ∈ setUnion (dims1.filter (fun d => d ≠ "*"))
          (dims2.filter (fun d => d ≠ "*")) ↔
        ((d ∈ dims1 ∨ d ∈ dims2) ∧ d ≠ "*") := by
    intro d
    rw [mem_setUnion]
    simp only [List.mem_filter, decide_eq_true_eq]
    tauto
  have hrefl : ∀ l : List String, setEqB l l = true := by
    intro l
    rw [setEqB_iff]
    intro d; rfl
  constructor
  · intro h1 h2
    refine ⟨_, ?_, hmem_union⟩
    unfold combine_dims
    rw [if_neg hne, if_neg (by tauto), if_neg (by tauto), if_pos h1,
      if_neg (not_not_intro (hrefl _))]
  · intro h1 h2
    have hiff : setEqB (dims2.filter (fun d => d ≠ "*"))
        (dims1.filter (fun d => d ≠ "*")) = true ↔
        ∀ d, d ≠ "*" → (d ∈ dims2 ↔ d ∈ dims1) := by
      rw [setEqB_iff]
      constructor
      · intro hc d hd
        have := hc d
        simp only [List.mem_filter, decide_eq_true_eq] at this
        exact ⟨fun h => (this.1 ⟨h, hd⟩).1, fun h => (this.2 ⟨h, hd⟩).1⟩
      · intro heq d
        simp only [List.mem_filter, decide_eq_true_eq]
        exact ⟨fun ⟨h, hd⟩ => ⟨(heq d hd).1 h, hd⟩,
               fun ⟨h, hd⟩ => ⟨(heq d hd).2 h, hd⟩⟩
    constructor
    · intro heq
      refine ⟨_, ?_, hmem_union⟩
      unfold combine_dims
      rw [if_neg hne, if_neg (by tauto), if_neg (by tauto),
        if_neg (by simpa using h1), if_neg (not_not_intro (hiff.2 heq))]
    · intro hneq
      unfold combine_dims
      rw [if_neg hne, if_neg (by tauto), if_neg (by tauto),
        if_neg (by simpa using h1), if_pos (fun hc => hneq (hiff.1 hc))]

/-- Witness for C2 (amended) at `dims1 = ["*"]`, `dims2 = ["a"]` and at
`dims1 = ["a"]`, `dims2 = ["a", "*"]`. -/
theorem C2_one_wildcard_combination_witness :
    (∃ out, combine_dims ["*"] ["a"] = .ok out ∧
      ∀ d, d ∈ out ↔ ((d ∈ ["*"] ∨ d ∈ ["a"]) ∧ d ≠ "*")) ∧
    (∃ out, combine_dims ["a"] ["a", "*"] = .ok out ∧
      ∀ d, d ∈ out ↔ ((d ∈ ["a"] ∨ d ∈ ["a", "*"]) ∧ d ≠ "*")) := by
  constructor
  · exact (C2_one_wildcard_combination ["*"] ["a"] (by decide)).1
      (by decide) (by decide)
  · exact ((C2_one_wildcard_combination ["a"] ["a", "*"] (by decide)).2
      (by decide) (by decide)).1
      (by intro d hd; simp [hd])

/-- `hasKey` tests membership among the keys. -/
theorem hasKey_iff {α : Type} {d : Dict α} {k : String} :
    Dict.hasKey d k = true ↔ k ∈ Dict.keys d := by
  unfold Dict.hasKey Dict.keys
  rw [List.any_eq_true]
  constructor
  · rintro ⟨p, hp, he⟩
    exact List.mem_map.2 ⟨p, hp, by simpa using he⟩
  · intro h
    rcases List.mem_map.1 h with ⟨p, hp, he⟩
    exact ⟨p, hp, by simp [he]⟩

/-! ## Claim C9 -/

/-- C9: the post-call output check accepts exactly the declared output set.
Part 1: if some declared quantity is absent from the raw output under its
name and all its aliases, a single missing-output error is raised naming
exactly the absent declared quantities.  Part 2: if nothing is missing but
undeclared keys are present, a single extra-output error is raised naming
exactly the undeclared keys.  Part 3: otherwise the check passes.  Part 4:
`check_array_shape` passes exactly when the rank matches the declared dims
and every dimension with an entry in the resolved dimension-length table has
that length; a rank mismatch names the quantity, the actual shape and the
expected dims. -/
theorem C9_output_checker_exactness (outP inP : Dict PropM)
    (outputs : Dict NArr) :
    ((∃ p ∈ wanted_output_aliases outP inP,
        ¬ outputs.hasKey p.1 ∧ ∀ a ∈ p.2, ¬ outputs.hasKey a) →
      ∃ L, check_outputs outP inP outputs = .error (.missingOutputs L) ∧
        ∀ n, n ∈ L ↔ ∃ al, (n, al) ∈ wanted_output_aliases outP inP ∧
          ¬ outputs.hasKey n ∧ ∀ a ∈ al, ¬ outputs.hasKey a) ∧
    ((∀ p ∈ wanted_output_aliases outP inP,
        outputs.hasKey p.1 ∨ ∃ a ∈ p.2, outputs.hasKey a) →
      (∃ k ∈ Dict.keys outputs,
        k ∉ Dict.keys (wanted_output_aliases outP inP) ∧
        ∀ p ∈ wanted_output_aliases outP inP, k ∉ p.2) →
      ∃ L, check_outputs outP inP outputs = .error (.extraOutputs L) ∧
        ∀ k, k ∈ L ↔ k ∈ Dict.keys outputs ∧
          k ∉ Dict.keys (wanted_output_aliases outP inP) ∧
          ∀ p ∈ wanted_output_aliases outP inP, k ∉ p.2) ∧
    ((∀ p ∈ wanted_output_aliases outP inP,
        outputs.hasKey p.1 ∨ ∃ a ∈ p.2, outputs.hasKey a) →
      (∀ k ∈ Dict.keys outputs,
        k ∈ Dict.keys (wanted_output_aliases outP inP) ∨
        ∃ p ∈ wanted_output_aliases outP inP, k ∈ p.2) →
      check_outputs outP inP outputs = .ok ()) ∧
    (∀ (out_dims : List String) (raw : NArr) (name : String)
        (dl : Dict Nat),
      (check_array_shape out_dims raw name dl = .ok () ↔
        out_dims.length = raw.shape.length ∧
        ∀ p ∈ out_dims.zip raw.shape, ∀ l, dl.lookup p.1 = some l →
          l = p.2) ∧
      (out_dims.length ≠ raw.shape.length →
        check_array_shape out_dims raw name dl =
          .error (.shapeMismatchRank name raw.shape out_dims))) := by
  have hmem_keys : ∀ (f : String × List String → Bool)
      (d : Dict (List String)) (n : String),
      n ∈ Dict.keys (d.filter f) ↔ ∃ v, (n, v) ∈ d ∧ f (n, v) = true := by
    intro f d n
    simp only [Dict.keys, List.mem_map, List.mem_filter]
    constructor
    · rintro ⟨⟨m, v⟩, ⟨hm, hf⟩, rfl⟩; exact ⟨v, hm, hf⟩
    · rintro ⟨v, hm, hf⟩; exact ⟨(n, v), ⟨hm, hf⟩, rfl⟩
  have habsent : ∀ (n : String) (al : List String),
      (decide (¬ outputs.hasKey n = true ∧
        ¬ al.any (fun a => outputs.hasKey a) = true) = true) ↔
      (¬ outputs.hasKey n = true ∧ ∀ a ∈ al, ¬ outputs.hasKey a = true) := by
    intro n al
    simp [List.any_eq_true]
  have hmissL : ∀ n, n ∈ Dict.keys ((wanted_output_aliases outP inP).filter
      (fun p => ¬ outputs.hasKey p.1 ∧
        ¬ p.2.any (fun a => outputs.hasKey a))) ↔
      ∃ al, (n, al) ∈ wanted_output_aliases outP inP ∧
        ¬ outputs.hasKey n ∧ ∀ a ∈ al, ¬ outputs.hasKey a := by
    intro n
    rw [hmem_keys]
    constructor
    · rintro ⟨al, hmem, hf⟩
      exact ⟨al, hmem, ((habsent n al).1 hf).1, ((habsent n al).1 hf).2⟩
    · rintro ⟨al, hmem, h1, h2⟩
      exact ⟨al, hmem, (habsent n al).2 ⟨h1, h2⟩⟩
  have hmiss_empty :
      (∀ p ∈ wanted_output_aliases outP inP,
        outputs.hasKey p.1 ∨ ∃ a ∈ p.2, outputs.hasKey a) →
      Dict.keys ((wanted_output_aliases outP inP).filter
        (fun p => ¬ outputs.hasKey p.1 ∧
          ¬ p.2.any (fun a => outputs.hasKey a))) = [] := by
    intro hall
    have : (wanted_output_aliases outP inP).filter
        (fun p => ¬ outputs.hasKey p.1 ∧
          ¬ p.2.any (fun a => outputs.hasKey a)) = [] := by
      rw [List.filter_eq_nil_iff]
      rintro ⟨n, al⟩ hmem hf
      rcases (habsent n al).1 hf with ⟨h1, h2⟩
      rcases hall (n, al) hmem with h | ⟨a, ha, hk⟩
      · exact h1 h
      · exact h2 a ha hk
    rw [this]; rfl
  have hextraL : ∀ k, k ∈ (Dict.keys outputs).filter
      (fun k => ¬ (Dict.keys (wanted_output_aliases outP inP) ++
        (wanted_output_aliases outP inP).flatMap
          (fun p => p.2)).contains k) ↔
      (k ∈ Dict.keys outputs ∧
        k ∉ Dict.keys (wanted_output_aliases outP inP) ∧
        ∀ p ∈ wanted_output_aliases outP inP, k ∉ p.2) := by
    intro k
    simp only [List.mem_filter, decide_eq_true_eq, Bool.not_eq_true,
      ← Bool.not_eq_true, List.contains_eq_any_beq, List.any_eq_true,
      beq_iff_eq]
    constructor
    · rintro ⟨hk, hn⟩
      simp only [List.any_eq_true, beq_iff_eq, not_exists, not_and,
        List.mem_append, List.mem_flatMap] at hn
      refine ⟨hk, fun hc => ?_, fun p hp hc => ?_⟩
      · exact hn k (Or.inl hc) rfl
      · exact hn k (Or.inr ⟨p, hp, hc⟩) rfl
    · rintro ⟨hk, h1, h2⟩
      refine ⟨hk, ?_⟩
      simp only [List.any_eq_true, beq_iff_eq, not_exists, not_and,
        List.mem_append, List.mem_flatMap]
      rintro a (ha | ⟨p, hp, ha⟩) rfl
      · exact h1 ha
      · exact h2 p hp ha
  have hmiss_ok :
      (∀ p ∈ wanted_output_aliases outP inP,
        outputs.hasKey p.1 ∨ ∃ a ∈ p.2, outputs.hasKey a) →
      check_missing_outputs (wanted_output_aliases outP inP) outputs =
        .ok () := by
    intro hall
    unfold check_missing_outputs
    rw [if_neg (by rw [hmiss_empty hall]; simp)]
  refine ⟨?_, ?_, ?_, ?_⟩
  · rintro ⟨p, hpmem, hp1, hp2⟩
    refine ⟨_, ?_, hmissL⟩
    have hmiss_err : check_missing_outputs
        (wanted_output_aliases outP inP) outputs =
        .error (.missingOutputs (Dict.keys
          ((wanted_output_aliases outP inP).filter
            (fun q => ¬ outputs.hasKey q.1 ∧
              ¬ q.2.any (fun a => outputs.hasKey a))))) := by
      unfold check_missing_outputs
      rw [if_pos ?_]
      have : p.1 ∈ Dict.keys ((wanted_output_aliases outP inP).filter
          (fun q => ¬ outputs.hasKey q.1 ∧
            ¬ q.2.any (fun a => outputs.hasKey a))) :=
        (hmissL p.1).2 ⟨p.2, hpmem, hp1, hp2⟩
      exact List.ne_nil_of_mem this
    unfold check_outputs
    rw [hmiss_err]
  · rintro hall ⟨k, hk, hk1, hk2⟩
    refine ⟨_, ?_, hextraL⟩
    unfold check_outputs
    rw [hmiss_ok hall]
    have hne : (Dict.keys outputs).filter
        (fun k => ¬ (Dict.keys (wanted_output_aliases outP inP) ++
          (wanted_output_aliases outP inP).flatMap
            (fun p => p.2)).contains k) ≠ [] :=
      List.ne_nil_of_mem ((hextraL k).2 ⟨hk, hk1, hk2⟩)
    unfold check_extra_outputs
    rw [if_pos hne]
  · intro hall hdecl
    unfold check_outputs
    rw [hmiss_ok hall]
    have hempty : (Dict.keys outputs).filter
        (fun k => ¬ (Dict.keys (wanted_output_aliases outP inP) ++
          (wanted_output_aliases outP inP).flatMap
            (fun p => p.2)).contains k) = [] := by
      rw [List.filter_eq_nil_iff]
      intro k hk hf
      have := (hextraL k).1 (List.mem_filter.2 ⟨hk, hf⟩)
      rcases hdecl k hk with h | ⟨p, hp, hc⟩
      · exact this.2.1 h
      · exact this.2.2 p hp hc
    unfold check_extra_outputs
    rw [if_neg (by rw [hempty]; simp)]
  · intro out_dims raw name dl
    constructor
    · unfold check_array_shape
      by_cases hlen : out_dims.length = raw.shape.length
      · rw [if_neg (by simpa using hlen)]
        constructor
        · intro h
          refine ⟨hlen, ?_⟩
          intro p hp l hl
          by_contra hc
          have : (out_dims.zip raw.shape).find? (fun p =>
              match dl.lookup p.1 with
              | some l => l ≠ p.2
              | none => false) = none := by
            cases hfind : (out_dims.zip raw.shape).find? (fun p =>
                match dl.lookup p.1 with
                | some l => l ≠ p.2
                | none => false) with
            | none => rfl
            | some q => rw [hfind] at h; exact absurd h (by simp)
          have := List.find?_eq_none.1 this p hp
          rw [hl] at this
          simp only [decide_eq_true_eq, not_not] at this
          exact hc this
        · rintro ⟨-, hall⟩
          have : (out_dims.zip raw.shape).find? (fun p =>
              match dl.lookup p.1 with
              | some l => l ≠ p.2
              | none => false) = none := by
            rw [List.find?_eq_none]
            intro p hp
            cases hl : dl.lookup p.1 with
            | none => simp
            | some l => simp [hall p hp l hl]
          rw [this]
      · rw [if_pos (by simpa using hlen)]
        constructor
        · intro h; exact absurd h (by simp)
        · rintro ⟨h, -⟩; exact absurd h hlen
    · intro hlen
      unfold check_array_shape
      rw [if_pos (by simpa using hlen)]

/-- Witness for C9: a component declaring outputs `x` and `y` whose kernel
returned only `x` produces a missing-output error naming exactly `y`. -/
theorem C9_output_checker_exactness_witness :
    ∃ L, check_outputs
        [("x", (⟨some ["a"], some "m", none⟩ : PropM)),
         ("y", ⟨some ["a"], some "m", none⟩)]
        ([] : Dict PropM) [("x", (⟨[2], [1, 1]⟩ : NArr))] =
      .error (.missingOutputs L) ∧
      ∀ n, n ∈ L ↔ ∃ al, (n, al) ∈ wanted_output_aliases
          [("x", (⟨some ["a"], some "m", none⟩ : PropM)),
           ("y", ⟨some ["a"], some "m", none⟩)] ([] : Dict PropM) ∧
        ¬ Dict.hasKey [("x", (⟨[2], [1, 1]⟩ : NArr))] n ∧
        ∀ a ∈ al, ¬ Dict.hasKey [("x", (⟨[2], [1, 1]⟩ : NArr))] a :=
  (C9_output_checker_exactness _ _ _).1
    ⟨("y", []), by decide, by decide, by decide⟩

/-! ## Units (`sympl/_core/units.py`, `dataarray.py`)

The unit algebra itself is the external `pint` engine (spec 4.1 calls it an
external unit-algebra engine).  It is modelled by a finite table mapping a
unit string to its physical dimension and its scale relative to the base
unit of that dimension; parsing an unknown string raises
`UndefinedUnitError`, and a conversion factor exists exactly between units
of the same dimension. -/

/-- Model of the pint unit registry: unit string to (dimension, scale). -/
def unitTable : Dict (String × ℚ) :=
  [("m", ("length", 1)), ("km", ("length", 1000)),
   ("cm", ("length", 1 / 100)), ("s", ("time", 1)),
   ("degK", ("temperature", 1)), ("m s^-1", ("velocity", 1))]

/-- `unit_registry(u)`: parse a unit string, raising `UndefinedUnitError`
for strings outside the table. -/
def pintParse (u : String) : Except Err (String × ℚ) :=
  match unitTable.lookup u with
  | some v => .ok v
  | none => .error (.undefinedUnit u)

/-- `unit_registry.convert(1, u1, u2)`: the linear conversion factor, which
exists exactly between units of equal dimensionality. -/
def pintConvertFactor (u1 u2 : String) : Except Err ℚ := do
  let q1 ← pintParse u1
  let q2 ← pintParse u2
  if q1.1 = q2.1 then .ok (q1.2 / q2.2)
  else .error (.dimensionality u1 u2)

/-- `units.data_array_to_units(data_array, units)`: if the parsed units
differ, scale the data by the conversion factor and replace the `units`
attribute; otherwise return the array unchanged. -/
def data_array_to_units (da : DataArrayM) (units : String) :
    Except Err DataArrayM := do
  let u ← match da.unitsAttr with
    | some u => Except.ok u
    | none => Except.error (.typeError "Cannot retrieve units")
  let q1 ← pintParse u
  let q2 ← pintParse units
  if q1 ≠ q2 then
    let factor ← pintConvertFactor u units
    .ok { da with
      arr := ⟨da.arr.shape, da.arr.data.map (fun x => factor * x)⟩,
      unitsAttr := some units }
  else .ok da

/-- `DataArray.to_units` (`dataarray.py`): `KeyError` when the `units`
attribute is absent, and a pint `DimensionalityError` is re-raised as a
`ValueError`. -/
def DataArrayM.to_units (da : DataArrayM) (units : String) :
    Except Err DataArrayM :=
  match da.unitsAttr with
  | none => .error (.keyError "units")
  | some _ =>
    match data_array_to_units da units with
    | .error (.dimensionality u1 u2) =>
      .error (.valueError ("cannot convert " ++ u1 ++ " to " ++ u2))
    | r => r

/-! ## Row-major array primitives (the numpy/xarray operations used) -/

/-- The element count of a shape. -/
def shapeProd (s : List Nat) : Nat := s.foldr (fun a b => a * b) 1

/-- Row-major digits of a flat index. -/
def unflattenIdx : List Nat → Nat → List Nat
  | [], _ => []
  | _ :: rest, i => i / shapeProd rest :: unflattenIdx rest (i % shapeProd rest)

/-- Row-major flat index of a multi-index. -/
def flattenIdx : List Nat → List Nat → Nat
  | _ :: rest, m :: ms => m * shapeProd rest + flattenIdx rest ms
  | _, _ => 0

/-- `numpy.reshape`: only the shape changes; the element count must be
preserved or a `ValueError` is raised. -/
def npReshape (a : NArr) (target : List Nat) : Except Err NArr :=
  if shapeProd a.shape = shapeProd target then .ok ⟨target, a.data⟩
  else .error (.valueError "cannot reshape array")

/-- `xarray.DataArray.transpose(*out_dims)`: reorder the axes so the
dimension labels appear in `outDims` order (`outDims` is a permutation of
`dims` at every call site; other inputs produce an unspecified layout, as
xarray would raise). -/
def npTranspose (dims : List String) (a : NArr) (outDims : List String) :
    NArr :=
  let perm := outDims.map (fun d => dims.indexOf d)
  let outShape := perm.map (fun j => a.shape.getD j 0)
  ⟨outShape, (List.range (shapeProd outShape)).map (fun i =>
    let m := unflattenIdx outShape i
    let src := (List.range dims.length).map
      (fun ax => m.getD (perm.indexOf ax) 0)
    a.data.getD (flattenIdx a.shape src) 0)⟩

/-- `out_array[:] = numpy_array` between equal-rank shapes that agree except
on length-1 source axes (numpy broadcasting as used by
`get_numpy_array`). -/
def npBroadcastTo (a : NArr) (outShape : List Nat) : NArr :=
  ⟨outShape, (List.range (shapeProd outShape)).map (fun i =>
    let m := unflattenIdx outShape i
    let sm := List.zipWith (fun mi sn => if sn = 1 then 0 else mi) m a.shape
    a.data.getD (flattenIdx a.shape sm) 0)⟩

/-- `xarray.DataArray.expand_dims(dim)`: insert a new leading axis of
length 1 labelled `d`. -/
def expand_dims (da : DataArrayM) (d : String) : DataArrayM :=
  ⟨d :: da.dims, ⟨1 :: da.arr.shape, da.arr.data⟩, da.unitsAttr⟩

/-! ## `sympl/_core/wildcard.py` -/

/-- `ensure_properties_have_dims_and_units`. -/
def ensure_properties_have_dims_and_units (p : PropM) (quantity_name : String) :
    Except Err Unit :=
  match p.dims? with
  | none => .error (.invalidPropertyDict
      ("dims not specified for quantity " ++ quantity_name))
  | some _ =>
    match p.units? with
    | none => .error (.invalidPropertyDict
        ("units not specified for quantity " ++ quantity_name))
    | some _ => .ok ()

/-- The inner loop of `get_wildcard_matches_and_dim_lengths` over
`zip(state[q].dims, state[q].shape)`: record each dimension's length, and
raise `InvalidStateError` at a conflicting length. -/
def accumDimLengths (dl : Dict Nat) : List (String × Nat) →
    Except Err (Dict Nat)
  | [] => .ok dl
  | (d, len) :: rest =>
    match dl.lookup d with
    | none => accumDimLengths (dl.set d len) rest
    | some l0 =>
      if len ≠ l0 then
        .error (.invalidState ("Dimension " ++ d ++
          " conflicting lengths in different state quantities."))
      else accumDimLengths dl rest

/-- The main loop of `get_wildcard_matches_and_dim_lengths`, iterating over
the property dictionary in declaration order with the `wildcard_names` and
`dim_lengths` accumulators. -/
def gwLoop (state : Dict DataArrayM) :
    List (String × PropM) → List String → Dict Nat →
    Except Err (List String × Dict Nat)
  | [], wn, dl => .ok (wn, dl)
  | (quantity_name, p) :: rest, wn, dl =>
    match ensure_properties_have_dims_and_units p quantity_name with
    | .error e => .error e
    | .ok _ =>
      match state.lookup quantity_name with
      | none => .error (.keyError quantity_name)
      | some q =>
        match accumDimLengths dl (q.dims.zip q.arr.shape) with
        | .error e => .error e
        | .ok dl2 =>
          let pdims := p.dims?.getD []
          let newWn := q.dims.filter (fun d => ¬ pdims.contains d)
          if newWn ≠ [] ∧ ¬ pdims.contains "*" then
            .error (.invalidState ("Quantity " ++ quantity_name ++
              " has unexpected dimensions."))
          else
            gwLoop state rest
              (wn ++ newWn.filter (fun n => ¬ wn.contains n)) dl2

/-- `get_wildcard_matches_and_dim_lengths(state, property_dictionary)`:
returns the wildcard match tuple (`none` when no property uses the wildcard
token) and the dimension-length table. -/
def get_wildcard_matches_and_dim_lengths (state : Dict DataArrayM)
    (props : Dict PropM) : Except Err (Option (List String) × Dict Nat) := do
  let (wn, dl) ← gwLoop state props [] []
  if props.any (fun p => p.2.dims?.isSome ∧
      (p.2.dims?.getD []).contains "*") then
    .ok (some wn, dl)
  else
    .ok (none, dl)

/-- `flatten_wildcard_dims(array, i_start, i_end)`: collapse the axes in
`[i_start, i_end)` into a single axis of their product length; with
`i_start == i_end` insert a singleton axis of length 1 at `i_start`
instead.  (`i_start < 0` is unrepresentable for `Nat`.) -/
def flatten_wildcard_dims (a : NArr) (iStart iEnd : Nat) : Except Err NArr :=
  if iEnd > a.shape.length then
    .error (.valueError "i_end should be less than the number of axes in array")
  else if iStart > iEnd then
    .error (.valueError "i_start should be less than or equal to i_end")
  else if iStart = iEnd then
    npReshape a (a.shape.take iStart ++ 1 :: a.shape.drop iStart)
  else
    npReshape a (a.shape.take iStart ++
      shapeProd ((a.shape.drop iStart).take (iEnd - iStart)) ::
      a.shape.drop iEnd)

/-- The loop body of `fill_dims_wildcard`: build the target shape and the
dims list with the wildcard expanded (`expandW = true`) or collapsed to the
product of the wildcard lengths (`expandW = false`); a wildcard dimension
name absent from `dim_lengths` raises `KeyError`. -/
def fillLoop (dl : Dict Nat) (iW : Nat) (wnames : List String)
    (expandW : Bool) : List (Nat × String) → List String → List Nat →
    Except Err (List String × List Nat)
  | [], odww, tgt => .ok (odww, tgt)
  | (i, out_dim) :: rest, odww, tgt =>
    if i = iW ∧ expandW then do
      let lens ← wnames.mapM (fun n => match dl.lookup n with
        | some l => Except.ok l
        | none => Except.error (.keyError n))
      fillLoop dl iW wnames expandW rest (odww ++ wnames) (tgt ++ lens)
    else if i = iW then do
      let lens ← wnames.mapM (fun n => match dl.lookup n with
        | some l => Except.ok l
        | none => Except.error (.keyError n))
      fillLoop dl iW wnames expandW rest odww
        (tgt ++ [lens.foldr (fun a b => a * b) 1])
    else
      match dl.lookup out_dim with
      | some l => fillLoop dl iW wnames expandW rest (odww ++ [out_dim])
          (tgt ++ [l])
      | none => .error (.keyError out_dim)

/-- `fill_dims_wildcard(out_dims, dim_lengths, wildcard_names,
expand_wildcard)`. -/
def fill_dims_wildcard (out_dims : List String) (dl : Dict Nat)
    (wnames : List String) (expandW : Bool) :
    Except Err (List String × List Nat) :=
  if "*" ∈ out_dims then
    fillLoop dl (out_dims.indexOf "*") wnames expandW out_dims.enum [] []
  else .error (.valueError "substring not found")

/-- `expand_array_wildcard_dims(raw_array, target_shape, name, out_dims)`:
reshape, converting a reshape failure into `InvalidPropertyDictError`. -/
def expand_array_wildcard_dims (raw : NArr) (target : List Nat)
    (name : String) : Except Err NArr :=
  match npReshape raw target with
  | .ok a => .ok a
  | .error _ => .error (.invalidPropertyDict
      ("Failed to restore shape for output " ++ name))

/-! ## `sympl/_core/get_np_arrays.py` -/

/-- `ensure_quantity_has_units`. -/
def ensure_quantity_has_units (q : DataArrayM) (quantity_name : String) :
    Except Err Unit :=
  match q.unitsAttr with
  | some _ => .ok ()
  | none => .error (.invalidState
      ("quantity " ++ quantity_name ++ " is missing units attribute"))

/-- `get_numpy_array(data_array, out_dims, dim_lengths)`: expand missing
target dims to leading singleton axes, transpose into `out_dims` order, and
broadcast formerly-missing axes to their authoritative lengths. -/
def get_numpy_array (da : DataArrayM) (out_dims : List String)
    (dim_lengths : Dict Nat) : NArr :=
  if da.arr.shape = [] ∧ out_dims = [] then da.arr
  else
    let missing_dims := out_dims.filter (fun d => ¬ da.dims.contains d)
    let da := missing_dims.foldl (fun acc d => expand_dims acc d) da
    let numpy_array :=
      if ¬ (List.zip da.dims out_dims).all (fun p => p.1 == p.2) then
        npTranspose da.dims da.arr out_dims
      else da.arr
    if missing_dims = [] then numpy_array
    else
      let out_shape := out_dims.map (fun n => (dim_lengths.lookup n).getD 1)
      if out_shape = numpy_array.shape then numpy_array
      else npBroadcastTo numpy_array out_shape

/-- The target dims of one property with the wildcard token spliced out for
`wildcard_names` (`out_dims[i_wildcard : i_wildcard + 1] = wildcard_names`). -/
def spliceWildcard (dims : List String) (i : Nat) (wnames : List String) :
    List String :=
  dims.take i ++ wnames ++ dims.drop (i + 1)

/-- The per-quantity loop of `get_numpy_arrays_with_properties`. -/
def gnapLoop (state : Dict DataArrayM) (wn : Option (List String))
    (dl : Dict Nat) : List (String × PropM) → Dict NArr →
    Except Err (Dict NArr)
  | [], out => .ok out
  | (name, p) :: rest, out =>
    match state.lookup name with
    | none => .error (.keyError name)
    | some q0 =>
      match ensure_quantity_has_units q0 name with
      | .error e => .error e
      | .ok _ =>
        match q0.to_units (p.units?.getD "") with
        | .error (.valueError _) => .error (.invalidState
            ("Could not convert quantity " ++ name))
        | .error e => .error e
        | .ok quantity =>
          match p.dims? with
          | none => .error (.keyError "dims")
          | some out_dims0 =>
            if "*" ∈ out_dims0 then
              match wn with
              | none => .error (.typeError
                  "wildcard_names is None although a property uses the wildcard")
              | some wnames =>
                let iW := out_dims0.indexOf "*"
                let out_dims := spliceWildcard out_dims0 iW wnames
                match flatten_wildcard_dims
                    (get_numpy_array quantity out_dims dl) iW
                    (iW + wnames.length) with
                | .error e => .error e
                | .ok out_array =>
                  gnapLoop state wn dl rest
                    (out.set (p.alias?.getD name) out_array)
            else
              gnapLoop state wn dl rest
                (out.set (p.alias?.getD name)
                  (get_numpy_array quantity out_dims0 dl))

/-- `get_numpy_arrays_with_properties(state, property_dictionary)`: the
inflow marshalling entry point. -/
def get_numpy_arrays_with_properties (state : Dict DataArrayM)
    (props : Dict PropM) : Except Err (Dict NArr) := do
  let (wn, dl) ← get_wildcard_matches_and_dim_lengths state props
  gnapLoop state wn dl props []

/-! ## `sympl/_core/restore_dataarray.py` -/

/-- `get_alias_or_name(name, output_properties, input_properties)`. -/
def get_alias_or_name (name : String) (outProps inProps : Dict PropM) :
    String :=
  match (outProps.lookup name).bind (fun p => p.alias?) with
  | some a => a
  | none =>
    match (inProps.lookup name).bind (fun p => p.alias?) with
    | some a => a
    | none => name

/-- The loop of `extract_output_dims_properties` over the output
properties in declaration order. -/
def extractLoop (inProps : Dict PropM) (ignore : List String) :
    List (String × PropM) → Dict (List String) →
    Except Err (Dict (List String))
  | [], acc => .ok acc
  | (name, p) :: rest, acc =>
    if name ∈ ignore then extractLoop inProps ignore rest acc
    else
      match p.dims? with
      | some d => extractLoop inProps ignore rest (acc.set name d)
      | none =>
        match inProps.lookup name with
        | none => .error (.invalidPropertyDict
            ("Output dims must be specified for " ++ name ++
              " in properties"))
        | some ip =>
          match ip.dims? with
          | none => .error (.invalidPropertyDict
              ("Input dims must be specified for " ++ name ++
                " in properties"))
          | some d => extractLoop inProps ignore rest (acc.set name d)

/-- `extract_output_dims_properties(output_properties, input_properties,
ignore_names)`. -/
def extract_output_dims_properties (outProps inProps : Dict PropM)
    (ignore : List String) : Except Err (Dict (List String)) :=
  extractLoop inProps ignore outProps []

/-- The per-quantity loop of `restore_data_arrays_with_properties`. -/
def restoreLoop (raw_arrays : Dict NArr) (outProps inProps : Dict PropM)
    (wn : Option (List String)) (dl : Dict Nat) (ignore : List String) :
    List (String × List String) → Dict DataArrayM →
    Except Err (Dict DataArrayM)
  | [], out => .ok out
  | (name, out_dims) :: rest, out =>
    if name ∈ ignore then
      restoreLoop raw_arrays outProps inProps wn dl ignore rest out
    else
      match (outProps.lookup name).bind (fun p => p.units?) with
      | none => .error (.keyError "units")
      | some units =>
        match raw_arrays.lookup (get_alias_or_name name outProps inProps) with
        | none => .error (.keyError (get_alias_or_name name outProps inProps))
        | some raw =>
          if "*" ∈ out_dims then
            let dl2 := (out_dims.zip raw.shape).foldl (fun acc p =>
              if ¬ acc.hasKey p.1 ∧ p.1 ≠ "*" then acc.set p.1 p.2 else acc)
              dl
            match wn with
            | none => .error (.typeError
                "wildcard_names is None although out_dims use the wildcard")
            | some wnames =>
              match fill_dims_wildcard out_dims dl2 wnames true with
              | .error e => .error e
              | .ok (odww, target) =>
                match expand_array_wildcard_dims raw target name with
                | .error e => .error e
                | .ok out_array =>
                  -- the Python loop mutates `dim_lengths` in place, so the
                  -- augmented table persists into later iterations
                  restoreLoop raw_arrays outProps inProps wn dl2 ignore rest
                    (out.set name ⟨odww, out_array, some units⟩)
          else
            match check_array_shape out_dims raw name dl with
            | .error e => .error e
            | .ok _ =>
              restoreLoop raw_arrays outProps inProps wn dl ignore rest
                (out.set name ⟨out_dims, raw, some units⟩)

/-- `restore_data_arrays_with_properties(raw_arrays, output_properties,
input_state, input_properties, ignore_names, ignore_missing)`: the outflow
marshalling entry point. -/
def restore_data_arrays_with_properties (raw_arrays : Dict NArr)
    (outProps : Dict PropM) (input_state : Dict DataArrayM)
    (inProps : Dict PropM) (ignore_names : Option (List String))
    (ignore_missing : Bool) : Except Err (Dict DataArrayM) := do
  let ignore := ignore_names.getD []
  let ignore := if ignore_missing then
      ((Dict.keys outProps).filter (fun k => ¬ raw_arrays.hasKey k)) ++ ignore
    else ignore
  let (wn, dl) ← get_wildcard_matches_and_dim_lengths input_state inProps
  let dfo ← extract_output_dims_properties outProps inProps ignore
  restoreLoop raw_arrays outProps inProps wn dl ignore dfo []

/-! ## Claim C4 -/

/-- The set of names accumulated by `gwLoop`: the starting accumulator plus,
for each declared quantity, the dims of its state array that its own
declared dims do not claim. -/
theorem gwLoop_mem (state : Dict DataArrayM) :
    ∀ (props : List (String × PropM)) (wn : List String) (dl : Dict Nat)
      (wn' : List String) (dl' : Dict Nat),
      gwLoop state props wn dl = .ok (wn', dl') →
      ∀ d, d ∈ wn' ↔ d ∈ wn ∨ ∃ p ∈ props, ∃ q,
        state.lookup p.1 = some q ∧ d ∈ q.dims ∧
        d ∉ (p.2.dims?.getD []) := by
  intro props
  induction props with
  | nil =>
    intro wn dl wn' dl' h d
    simp only [gwLoop] at h
    cases h
    simp
  | cons hd rest ih =>
    intro wn dl wn' dl' h d
    obtain ⟨name, p⟩ := hd
    simp only [gwLoop] at h
    cases he : ensure_properties_have_dims_and_units p name with
    | error e => simp [he] at h
    | ok u =>
      simp only [he] at h
      cases hq : state.lookup name with
      | none => simp [hq] at h
      | some q =>
        simp only [hq] at h
        cases ha : accumDimLengths dl (q.dims.zip q.arr.shape) with
        | error e => simp [ha] at h
        | ok dl2 =>
          simp only [ha] at h
          by_cases hcond : (q.dims.filter (fun d =>
              ¬ (p.dims?.getD []).contains d) ≠ [] ∧
              ¬ (p.dims?.getD []).contains "*")
          · rw [if_pos hcond] at h; cases h
          · rw [if_neg hcond] at h
            rw [ih _ _ _ _ h d]
            have hsplit : d ∈ wn ++ (q.dims.filter (fun d =>
                ¬ (p.dims?.getD []).contains d)).filter
                  (fun n => ¬ wn.contains n) ↔
                d ∈ wn ∨ d ∈ q.dims.filter (fun d =>
                  ¬ (p.dims?.getD []).contains d) :=
              mem_setUnion
            rw [hsplit]
            have hnew : d ∈ q.dims.filter (fun d =>
                ¬ (p.dims?.getD []).contains d) ↔
                d ∈ q.dims ∧ d ∉ (p.dims?.getD []) := by
              simp [List.mem_filter]
            rw [hnew]
            constructor
            · rintro ((hw | hn) | htail)
              · exact Or.inl hw
              · exact Or.inr ⟨(name, p), List.mem_cons_self _ _,
                  q, hq, hn.1, hn.2⟩
              · rcases htail with ⟨pp, hpp, qq, hqq, hd1, hd2⟩
                exact Or.inr ⟨pp, List.mem_cons_of_mem _ hpp, qq, hqq,
                  hd1, hd2⟩
            · rintro (hw | ⟨pp, hpp, qq, hqq, hd1, hd2⟩)
              · exact Or.inl (Or.inl hw)
              · rcases List.mem_cons.1 hpp with rfl | hpp2
                · rw [hq] at hqq
                  cases hqq
                  exact Or.inl (Or.inr ⟨hd1, hd2⟩)
                · exact Or.inr ⟨pp, hpp2, qq, hqq, hd1, hd2⟩

/-- C4: the resolved wildcard tuple is not invariant under re-ordering of
the declaration's quantities.  With two wildcard-only quantities whose state
arrays carry dims `a` and `b` respectively, declaration order `(q1, q2)`
resolves to `("a", "b")` while `(q2, q1)` resolves to `("b", "a")`. -/
theorem C4_counterexample :
    get_wildcard_matches_and_dim_lengths
        [("q1", ⟨["a"], ⟨[2], [1, 2]⟩, some "m"⟩),
         ("q2", ⟨["b"], ⟨[3], [1, 2, 3]⟩, some "m"⟩)]
        [("q1", ⟨some ["*"], some "m", none⟩),
         ("q2", ⟨some ["*"], some "m", none⟩)] =
      .ok (some ["a", "b"], [("a", 2), ("b", 3)]) ∧
    get_wildcard_matches_and_dim_lengths
        [("q1", ⟨["a"], ⟨[2], [1, 2]⟩, some "m"⟩),
         ("q2", ⟨["b"], ⟨[3], [1, 2, 3]⟩, some "m"⟩)]
        [("q2", ⟨some ["*"], some "m", none⟩),
         ("q1", ⟨some ["*"], some "m", none⟩)] =
      .ok (some ["b", "a"], [("b", 3), ("a", 2)]) ∧
    (["a", "b"] : List String) ≠ ["b", "a"] := by
  refine ⟨rfl, rfl, by decide⟩

/-- C4 (amended): the wildcard resolution collects, per declared quantity in
declaration iteration order, the state dims that quantity's own declared
dims do not claim; so (a) for a single quantity with state dims `[a, b, c]`
and declared dims `["a", "*"]` it resolves to `("b", "c")`, (b) membership
in the resolved tuple is exactly "some declared quantity's state array has
this dim and that quantity's own dims entry does not claim it", and (c)
under a re-ordering of the declaration's quantities the resolved tuple
keeps the same members, though not necessarily the same order. -/
theorem C4_wildcard_membership (state : Dict DataArrayM) (props : Dict PropM)
    (wn : List String) (dl : Dict Nat)
    (h : get_wildcard_matches_and_dim_lengths state props =
      .ok (some wn, dl)) :
    (∀ d, d ∈ wn ↔ ∃ p ∈ props, ∃ q, state.lookup p.1 = some q ∧
      d ∈ q.dims ∧ d ∉ (p.2.dims?.getD [])) ∧
    (∀ (props' : Dict PropM) (wn' : List String) (dl' : Dict Nat),
      props.Perm props' →
      get_wildcard_matches_and_dim_lengths state props' =
        .ok (some wn', dl') →
      ∀ d, d ∈ wn ↔ d ∈ wn') := by
  have hchar : ∀ (ps : Dict PropM) (w : List String) (l : Dict Nat),
      get_wildcard_matches_and_dim_lengths state ps = .ok (some w, l) →
      ∀ d, d ∈ w ↔ ∃ p ∈ ps, ∃ q, state.lookup p.1 = some q ∧
        d ∈ q.dims ∧ d ∉ (p.2.dims?.getD []) := by
    intro ps w l hok d
    unfold get_wildcard_matches_and_dim_lengths at hok
    cases hg : gwLoop state ps [] [] with
    | error e => rw [hg] at hok; cases hok
    | ok r =>
      rw [hg] at hok
      simp only [bind, Except.bind] at hok
      by_cases hany : ps.any (fun p => p.2.dims?.isSome ∧
          (p.2.dims?.getD []).contains "*")
      · rw [if_pos hany] at hok
        cases hok
        have := gwLoop_mem state ps [] [] r.1 r.2 (by rw [hg]) d
        simpa using this
      · rw [if_neg hany] at hok
        cases hok
  refine ⟨hchar props wn dl h, ?_⟩
  intro props' wn' dl' hperm h' d
  rw [hchar props wn dl h d, hchar props' wn' dl' h' d]
  constructor
  · rintro ⟨p, hp, hrest⟩
    exact ⟨p, hperm.mem_iff.1 hp, hrest⟩
  · rintro ⟨p, hp, hrest⟩
    exact ⟨p, hperm.mem_iff.2 hp, hrest⟩

/-- Witness for C4 (amended): the `[a, b, c]` / `["a", "*"]` example
resolves to `("b", "c")`, verified through the membership
characterization. -/
theorem C4_wildcard_membership_witness :
    ("b" ∈ ["b", "c"] ↔ ∃ p ∈ [("q", (⟨some ["a", "*"], some "m",
        none⟩ : PropM))], ∃ q, Dict.lookup [("q", (⟨["a", "b", "c"],
        ⟨[2, 3, 4], List.replicate 24 (0 : ℚ)⟩, some "m"⟩ : DataArrayM))]
        p.1 = some q ∧ "b" ∈ q.dims ∧ "b" ∉ (p.2.dims?.getD [])) ∧
    ("a" ∈ ["b", "c"] ↔ ∃ p ∈ [("q", (⟨some ["a", "*"], some "m",
        none⟩ : PropM))], ∃ q, Dict.lookup [("q", (⟨["a", "b", "c"],
        ⟨[2, 3, 4], List.replicate 24 (0 : ℚ)⟩, some "m"⟩ : DataArrayM))]
        p.1 = some q ∧ "a" ∈ q.dims ∧ "a" ∉ (p.2.dims?.getD [])) := by
  have h := C4_wildcard_membership
    [("q", ⟨["a", "b", "c"], ⟨[2, 3, 4], List.replicate 24 (0 : ℚ)⟩,
      some "m"⟩)]
    [("q", ⟨some ["a", "*"], some "m", none⟩)]
    ["b", "c"] [("a", 2), ("b", 3), ("c", 4)] (by rfl)
  exact ⟨h.1 "b", h.1 "a"⟩

/-! ## Dictionary lemmas -/

/-- A key not present looks up to `none`. -/
theorem lookup_eq_none_of_not_hasKey {α : Type} {d : Dict α} {k : String}
    (h : ¬ Dict.hasKey d k = true) : d.lookup k = none := by
  unfold Dict.lookup
  rw [List.lookup_eq_none_iff]
  intro p hp
  simp only [Dict.hasKey, List.any_eq_true, not_exists, not_and] at h
  have hne : p.1 ≠ k := by simpa using h p hp
  simp [bne, Ne.symm hne]

/-- A present key looks up to `some`. -/
theorem lookup_isSome_of_hasKey {α : Type} {d : Dict α} {k : String}
    (h : Dict.hasKey d k = true) : (d.lookup k).isSome := by
  unfold Dict.lookup
  rw [List.lookup_isSome_iff]
  simp only [Dict.hasKey, List.any_eq_true, beq_iff_eq] at h
  rcases h with ⟨p, hp, he⟩
  exact ⟨p, hp, by simp [he]⟩

/-- Assignment at an absent key appends the binding. -/
theorem set_of_not_hasKey {α : Type} {d : Dict α} {k : String} (v : α)
    (h : ¬ Dict.hasKey d k = true) : d.set k v = d ++ [(k, v)] := by
  unfold Dict.set
  rw [if_neg h]

/-- Looking up the assigned key in the in-place-replacement branch. -/
theorem lookup_map_replace {α : Type} (d : Dict α) (k : String) (v : α) :
    List.lookup k (d.map (fun p => if p.1 == k then (k, v) else p)) =
      (List.lookup k d).map (fun _ => v) := by
  induction d with
  | nil => rfl
  | cons p rest ih =>
    obtain ⟨a, b⟩ := p
    rw [List.map_cons, List.lookup_cons]
    by_cases ha : a = k
    · subst ha
      rw [if_pos (by simp)]
      simp [List.lookup_cons]
    · rw [if_neg (by simp [ha])]
      have hk : (k == a) = false := by simp [Ne.symm ha]
      simp only [List.lookup_cons, hk]
      exact ih

/-- Looking up a different key in the in-place-replacement branch. -/
theorem lookup_map_replace_ne {α : Type} (d : Dict α) {k k' : String}
    (v : α) (h : k' ≠ k) :
    List.lookup k' (d.map (fun p => if p.1 == k then (k, v) else p)) =
      List.lookup k' d := by
  induction d with
  | nil => rfl
  | cons p rest ih =>
    obtain ⟨a, b⟩ := p
    rw [List.map_cons, List.lookup_cons]
    by_cases ha : a = k
    · subst ha
      rw [if_pos (by simp)]
      have h1 : (k' == a) = false := by simp [h]
      simp only [List.lookup_cons, h1]
      exact ih
    · rw [if_neg (by simp [ha])]
      simp only [List.lookup_cons]
      cases k' == a
      · exact ih
      · rfl

/-- Looking up the key just assigned. -/
theorem lookup_set_self {α : Type} (d : Dict α) (k : String) (v : α) :
    (d.set k v).lookup k = some v := by
  unfold Dict.set
  by_cases h : Dict.hasKey d k
  · rw [if_pos h]
    unfold Dict.lookup
    rw [lookup_map_replace]
    rcases Option.isSome_iff_exists.1 (lookup_isSome_of_hasKey h)
      with ⟨w, hw⟩
    unfold Dict.lookup at hw
    rw [hw]
    rfl
  · rw [if_neg h]
    unfold Dict.lookup
    rw [List.lookup_append]
    have := lookup_eq_none_of_not_hasKey h
    unfold Dict.lookup at this
    rw [this]
    simp [List.lookup_cons]

/-- Looking up a different key after an assignment. -/
theorem lookup_set_ne {α : Type} (d : Dict α) {k k' : String} (v : α)
    (h : k' ≠ k) : (d.set k v).lookup k' = d.lookup k' := by
  unfold Dict.set
  by_cases hk : Dict.hasKey d k
  · rw [if_pos hk]
    unfold Dict.lookup
    exact lookup_map_replace_ne d v h
  · rw [if_neg hk]
    unfold Dict.lookup
    rw [List.lookup_append]
    have h1 : (k' == k) = false := by simpa using h
    simp [List.lookup_cons, h1]

/-! ## `accumDimLengths` invariants -/

/-- `accumDimLengths` never removes or changes an existing binding. -/
theorem accumDimLengths_mono :
    ∀ (pairs : List (String × Nat)) (dl dl' : Dict Nat),
      accumDimLengths dl pairs = .ok dl' →
      ∀ k v, dl.lookup k = some v → dl'.lookup k = some v := by
  intro pairs
  induction pairs with
  | nil =>
    intro dl dl' h k v hk
    simp only [accumDimLengths] at h
    cases h
    exact hk
  | cons p rest ih =>
    intro dl dl' h k v hk
    obtain ⟨d, len⟩ := p
    simp only [accumDimLengths] at h
    cases hl : dl.lookup d with
    | none =>
      simp only [hl] at h
      refine ih _ _ h k v ?_
      by_cases hkd : k = d
      · subst hkd
        rw [hk] at hl
        cases hl
      · rw [lookup_set_ne _ _ hkd]
        exact hk
    | some l0 =>
      simp only [hl] at h
      by_cases hlen : len ≠ l0
      · rw [if_pos hlen] at h
        simp at h
      · rw [if_neg hlen] at h
        exact ih _ _ h k v hk

/-- After a successful `accumDimLengths` pass, every processed `(dim,
length)` pair is bound in the resulting table. -/
theorem accumDimLengths_binds :
    ∀ (pairs : List (String × Nat)) (dl dl' : Dict Nat),
      accumDimLengths dl pairs = .ok dl' →
      ∀ p ∈ pairs, dl'.lookup p.1 = some p.2 := by
  intro pairs
  induction pairs with
  | nil =>
    intro dl dl' h p hp
    simp at hp
  | cons hd rest ih =>
    intro dl dl' h p hp
    obtain ⟨d, len⟩ := hd
    simp only [accumDimLengths] at h
    cases hl : dl.lookup d with
    | none =>
      simp only [hl] at h
      rcases List.mem_cons.1 hp with rfl | hp2
      · exact accumDimLengths_mono _ _ _ h d len (lookup_set_self dl d len)
      · exact ih _ _ h p hp2
    | some l0 =>
      simp only [hl] at h
      by_cases hlen : len ≠ l0
      · rw [if_pos hlen] at h
        simp at h
      · rw [if_neg hlen] at h
        rcases List.mem_cons.1 hp with rfl | hp2
        · have : len = l0 := by simpa using hlen
          subst this
          exact accumDimLengths_mono _ _ _ h d len hl
        · exact ih _ _ h p hp2

/-! ## `get_numpy_array` and `flatten_wildcard_dims` facts -/

/-- Zipping a list with itself pairs each element with itself. -/
theorem zip_self {α : Type} (l : List α) :
    l.zip l = l.map (fun a => (a, a)) := by
  induction l with
  | nil => rfl
  | cons a t ih => simp [List.zip_cons_cons, ih]

/-- When the requested dims are exactly the array's own dims,
`get_numpy_array` passes the buffer through untouched. -/
theorem get_numpy_array_self (da : DataArrayM) (dl : Dict Nat) :
    get_numpy_array da da.dims dl = da.arr := by
  unfold get_numpy_array
  by_cases h : da.arr.shape = [] ∧ da.dims = []
  · rw [if_pos h]
  · rw [if_neg h]
    have hmiss : da.dims.filter (fun d => ¬ da.dims.contains d) = [] := by
      rw [List.filter_eq_nil_iff]
      intro a ha
      simp [ha]
    have hall : (List.zip da.dims da.dims).all (fun p => p.1 == p.2) =
        true := by
      rw [List.all_eq_true]
      intro p hp
      rw [zip_self] at hp
      rcases List.mem_map.1 hp with ⟨a, -, rfl⟩
      simp
    rw [hmiss]
    simp only [List.foldl_nil]
    rw [hall, if_neg (show ¬ (¬ true = true) by simp)]
    simp

/-- `flatten_wildcard_dims` at an empty wildcard window at the end of the
shape appends a singleton axis. -/
theorem flatten_wildcard_dims_empty_end (sh : List Nat) (data : List ℚ)
    (n : Nat) (hn : n = sh.length) :
    flatten_wildcard_dims ⟨sh, data⟩ n n = .ok ⟨sh ++ [1], data⟩ := by
  subst hn
  unfold flatten_wildcard_dims
  rw [if_neg (by simp), if_neg (by simp), if_pos rfl]
  unfold npReshape
  rw [if_pos ?_]
  · simp
  · simp only [List.take_length, List.drop_length]
    simp [shapeProd, List.foldr_append]

/-! ## Claim C10 -/

/-- C10: when a declared dims list ends in the wildcard token and the
wildcard resolves to zero dimension names, marshal-inflow returns the
quantity's buffer with a singleton axis of length 1 inserted at the
wildcard position (here: appended, since the wildcard is last) instead of
dropping that axis. -/
theorem C10_empty_wildcard_singleton_axis (name : String) (ds : List String)
    (sh : List Nat) (data : List ℚ) (dl : Dict Nat)
    (hstar : "*" ∉ ds) (hlen : sh.length = ds.length)
    (hgw : get_wildcard_matches_and_dim_lengths
        [(name, ⟨ds, ⟨sh, data⟩, some "m"⟩)]
        [(name, ⟨some (ds ++ ["*"]), some "m", none⟩)] =
      .ok (some [], dl)) :
    get_numpy_arrays_with_properties
        [(name, ⟨ds, ⟨sh, data⟩, some "m"⟩)]
        [(name, ⟨some (ds ++ ["*"]), some "m", none⟩)] =
      .ok [(name, ⟨sh ++ [1], data⟩)] := by
  unfold get_numpy_arrays_with_properties
  rw [hgw]
  show gnapLoop _ (some []) dl _ [] = _
  have h1 : Dict.lookup [(name, (⟨ds, ⟨sh, data⟩, some "m"⟩ : DataArrayM))]
      name = some ⟨ds, ⟨sh, data⟩, some "m"⟩ := by
    simp [Dict.lookup, List.lookup_cons]
  have h2 : ensure_quantity_has_units
      (⟨ds, ⟨sh, data⟩, some "m"⟩ : DataArrayM) name = .ok () := rfl
  have h3 : DataArrayM.to_units (⟨ds, ⟨sh, data⟩, some "m"⟩ : DataArrayM)
      "m" = .ok ⟨ds, ⟨sh, data⟩, some "m"⟩ := rfl
  simp only [gnapLoop, h1, h2, h3, Option.getD_some]
  rw [if_pos (by simp : "*" ∈ ds ++ ["*"])]
  have hidx : (ds ++ ["*"]).indexOf "*" = ds.length := by
    rw [List.indexOf_append_of_not_mem hstar]
    simp [List.indexOf_cons_self]
  rw [hidx]
  have hsplice : spliceWildcard (ds ++ ["*"]) ds.length [] = ds := by
    unfold spliceWildcard
    rw [List.take_left, List.append_nil]
    rw [List.drop_eq_nil_of_le (by simp)]
    simp
  rw [hsplice]
  rw [show get_numpy_array ⟨ds, ⟨sh, data⟩, some "m"⟩ ds dl =
    (⟨sh, data⟩ : NArr) from get_numpy_array_self ⟨ds, ⟨sh, data⟩, some "m"⟩
    dl]
  rw [show ds.length + List.length ([] : List String) = sh.length by
    simp [hlen]]
  rw [← hlen]
  rw [flatten_wildcard_dims_empty_end sh data sh.length rfl]
  rfl

/-- Witness for C10: a one-dimensional quantity with dims `["a"]` and shape
`[2]` against declared dims `["a", "*"]` marshals to shape `[2, 1]`. -/
theorem C10_empty_wildcard_singleton_axis_witness :
    get_numpy_arrays_with_properties
        [("q", ⟨["a"], ⟨[2], [5, 7]⟩, some "m"⟩)]
        [("q", ⟨some ["a", "*"], some "m", none⟩)] =
      .ok [("q", ⟨[2, 1], [5, 7]⟩)] :=
  C10_empty_wildcard_singleton_axis "q" ["a"] [2] [5, 7]
    [("a", 2)] (by decide) (by decide) (by rfl)

/-! ## Further dictionary and shape lemmas -/

/-- A successful lookup implies key presence. -/
theorem hasKey_of_lookup_some {α : Type} {d : Dict α} {k : String} {v : α}
    (h : d.lookup k = some v) : Dict.hasKey d k = true := by
  by_contra hc
  rw [lookup_eq_none_of_not_hasKey hc] at h
  cases h

/-- With no duplicate keys, membership determines the lookup result. -/
theorem lookup_of_mem_nodup {α : Type} {d : Dict α} {k : String} {v : α}
    (hmem : (k, v) ∈ d) (hnodup : (Dict.keys d).Nodup) :
    d.lookup k = some v := by
  induction d with
  | nil => cases hmem
  | cons p rest ih =>
    unfold Dict.lookup
    rw [List.lookup_cons]
    rcases List.mem_cons.1 hmem with rfl | hmem2
    · simp
    · have hkmem : k ∈ Dict.keys rest := List.mem_map.2 ⟨(k, v), hmem2, rfl⟩
      have hkne : k ≠ p.1 := by
        intro he
        exact (List.nodup_cons.1 hnodup).1 (he ▸ hkmem)
      have : (k == p.1) = false := by simpa using hkne
      rw [this]
      exact ih hmem2 (List.nodup_cons.1 hnodup).2

/-- `shapeProd` is multiplicative over append. -/
theorem shapeProd_append (a b : List Nat) :
    shapeProd (a ++ b) = shapeProd a * shapeProd b := by
  induction a with
  | nil => simp [shapeProd]
  | cons x t ih =>
    simp only [List.cons_append, shapeProd, List.foldr_cons]
    rw [show List.foldr (fun a b => a * b) 1 (t ++ b) =
      shapeProd (t ++ b) from rfl, ih]
    unfold shapeProd
    ring

/-- `flatten_wildcard_dims` succeeds whenever the window fits, producing the
take/product/drop shape with the data untouched. -/
theorem flatten_wildcard_dims_ok (sh : List Nat) (data : List ℚ)
    (i e : Nat) (hie : i ≤ e) (hlen : e ≤ sh.length) :
    flatten_wildcard_dims ⟨sh, data⟩ i e =
      .ok ⟨if i = e then sh.take i ++ 1 :: sh.drop i
           else sh.take i ++
             shapeProd ((sh.drop i).take (e - i)) :: sh.drop e, data⟩ := by
  have hdecomp : ∀ j, shapeProd sh =
      shapeProd (sh.take j) * shapeProd (sh.drop j) := by
    intro j
    rw [← shapeProd_append, List.take_append_drop]
  have hc1 : shapeProd sh = shapeProd (sh.take i ++ 1 :: sh.drop i) := by
    rw [shapeProd_append]
    rw [show shapeProd (1 :: sh.drop i) = 1 * shapeProd (sh.drop i)
      from rfl]
    rw [one_mul]
    exact hdecomp i
  have hc2 : shapeProd sh = shapeProd (sh.take i ++
      shapeProd ((sh.drop i).take (e - i)) :: sh.drop e) := by
    rw [shapeProd_append]
    rw [show shapeProd (shapeProd ((sh.drop i).take (e - i)) ::
        sh.drop e) = shapeProd ((sh.drop i).take (e - i)) *
        shapeProd (sh.drop e) from rfl]
    have h2 : shapeProd (sh.drop i) =
        shapeProd ((sh.drop i).take (e - i)) *
          shapeProd ((sh.drop i).drop (e - i)) := by
      rw [← shapeProd_append, List.take_append_drop]
    have h3 : (sh.drop i).drop (e - i) = sh.drop e := by
      rw [List.drop_drop]
      congr 1
      omega
    rw [hdecomp i, h2, h3]
  unfold flatten_wildcard_dims npReshape
  dsimp only
  rw [if_neg (by omega), if_neg (by omega)]
  by_cases hieq : i = e
  · rw [if_pos hieq, if_pos hieq, if_pos hc1]
  · rw [if_neg hieq, if_neg hieq, if_pos hc2]

/-- Converting a `DataArray` into its own (table-known) units is the
identity. -/
theorem to_units_self (d : List String) (a : NArr) (u : String)
    (hu : (unitTable.lookup u).isSome) :
    DataArrayM.to_units ⟨d, a, some u⟩ u = .ok ⟨d, a, some u⟩ := by
  rcases Option.isSome_iff_exists.1 hu with ⟨w, hw⟩
  unfold DataArrayM.to_units data_array_to_units pintParse
  simp [hw, bind, Except.bind]

/-- `gwLoop` only extends the dimension-length table. -/
theorem gwLoop_mono (state : Dict DataArrayM) :
    ∀ (props : List (String × PropM)) (wn : List String) (dl : Dict Nat)
      (wn' : List String) (dl' : Dict Nat),
      gwLoop state props wn dl = .ok (wn', dl') →
      ∀ k v, dl.lookup k = some v → dl'.lookup k = some v := by
  intro props
  induction props with
  | nil =>
    intro wn dl wn' dl' h k v hk
    simp only [gwLoop] at h
    cases h
    exact hk
  | cons hd rest ih =>
    intro wn dl wn' dl' h k v hk
    obtain ⟨name, p⟩ := hd
    simp only [gwLoop] at h
    cases he : ensure_properties_have_dims_and_units p name with
    | error e => simp [he] at h
    | ok u =>
      simp only [he] at h
      cases hq : state.lookup name with
      | none => simp [hq] at h
      | some q =>
        simp only [hq] at h
        cases ha : accumDimLengths dl (q.dims.zip q.arr.shape) with
        | error e => simp [ha] at h
        | ok dl2 =>
          simp only [ha] at h
          by_cases hcond : (q.dims.filter (fun d =>
              ¬ (p.dims?.getD []).contains d) ≠ [] ∧
              ¬ (p.dims?.getD []).contains "*")
          · rw [if_pos hcond] at h
            simp at h
          · rw [if_neg hcond] at h
            exact ih _ _ _ _ h k v
              (accumDimLengths_mono _ _ _ ha k v hk)

/-- After a successful `gwLoop` pass, every declared quantity's
`(dim, length)` pairs are bound in the final table. -/
theorem gwLoop_binds (state : Dict DataArrayM) :
    ∀ (props : List (String × PropM)) (wn : List String) (dl : Dict Nat)
      (wn' : List String) (dl' : Dict Nat),
      gwLoop state props wn dl = .ok (wn', dl') →
      ∀ p ∈ props, ∀ q, state.lookup p.1 = some q →
      ∀ pr ∈ q.dims.zip q.arr.shape, dl'.lookup pr.1 = some pr.2 := by
  intro props
  induction props with
  | nil =>
    intro wn dl wn' dl' h p hp
    cases hp
  | cons hd rest ih =>
    intro wn dl wn' dl' h p hp q hq pr hpr
    obtain ⟨name, pp⟩ := hd
    simp only [gwLoop] at h
    cases he : ensure_properties_have_dims_and_units pp name with
    | error e => simp [he] at h
    | ok u =>
      simp only [he] at h
      cases hq0 : state.lookup name with
      | none => simp [hq0] at h
      | some q0 =>
        simp only [hq0] at h
        cases ha : accumDimLengths dl (q0.dims.zip q0.arr.shape) with
        | error e => simp [ha] at h
        | ok dl2 =>
          simp only [ha] at h
          by_cases hcond : (q0.dims.filter (fun d =>
              ¬ (pp.dims?.getD []).contains d) ≠ [] ∧
              ¬ (pp.dims?.getD []).contains "*")
          · rw [if_pos hcond] at h
            simp at h
          · rw [if_neg hcond] at h
            rcases List.mem_cons.1 hp with rfl | hp2
            · simp only at hq
              rw [hq0] at hq
              cases hq
              exact gwLoop_mono state _ _ _ _ _ h pr.1 pr.2
                (accumDimLengths_binds _ _ _ ha pr hpr)
            · exact ih _ _ _ _ h p hp2 q hq pr hpr

/-- Success of the wildcard resolver binds every state dim length. -/
theorem dim_lengths_correct (state : Dict DataArrayM) (props : Dict PropM)
    (wnOpt : Option (List String)) (dl : Dict Nat)
    (hgw : get_wildcard_matches_and_dim_lengths state props =
      .ok (wnOpt, dl)) :
    ∀ p ∈ props, ∀ q, state.lookup p.1 = some q →
    ∀ pr ∈ q.dims.zip q.arr.shape, dl.lookup pr.1 = some pr.2 := by
  intro p hp q hq pr hpr
  unfold get_wildcard_matches_and_dim_lengths at hgw
  cases hg : gwLoop state props [] [] with
  | error e => rw [hg] at hgw; cases hgw
  | ok r =>
    rw [hg] at hgw
    simp only [bind, Except.bind] at hgw
    have hdl : r.2 = dl := by
      by_cases hany : props.any (fun p => p.2.dims?.isSome ∧
          (p.2.dims?.getD []).contains "*")
      · rw [if_pos hany] at hgw
        cases hgw
        rfl
      · rw [if_neg hany] at hgw
        cases hgw
        rfl
    subst hdl
    exact gwLoop_binds state props [] [] r.1 r.2 (by rw [hg]) p hp q hq
      pr hpr

/-- Key presence distributes over dictionary append. -/
theorem hasKey_append {α : Type} (a b : Dict α) (k : String) :
    Dict.hasKey (a ++ b) k = (Dict.hasKey a k || Dict.hasKey b k) := by
  unfold Dict.hasKey
  exact List.any_append

/-- The shape produced by `flatten_wildcard_dims` for the window
`[i, e)`. -/
def flatShape (sh : List Nat) (i e : Nat) : List Nat :=
  if i = e then sh.take i ++ 1 :: sh.drop i
  else sh.take i ++ shapeProd ((sh.drop i).take (e - i)) :: sh.drop e

/-- `flatten_wildcard_dims` in terms of `flatShape`. -/
theorem flatten_wildcard_dims_flatShape (sh : List Nat) (data : List ℚ)
    (i e : Nat) (hie : i ≤ e) (hlen : e ≤ sh.length) :
    flatten_wildcard_dims ⟨sh, data⟩ i e = .ok ⟨flatShape sh i e, data⟩ := by
  rw [flatten_wildcard_dims_ok sh data i e hie hlen]
  rfl

/-- The raw buffer that inflow marshalling produces for one declared
quantity whose target dims match the stored dims (a description used by the
round-trip theorem, not part of the source). -/
def inflowArrOf (state : Dict DataArrayM) (wnOpt : Option (List String))
    (p : String × PropM) : NArr :=
  match state.lookup p.1, p.2.dims? with
  | some q, some ds0 =>
    if "*" ∈ ds0 then
      ⟨flatShape q.arr.shape (ds0.indexOf "*")
        (ds0.indexOf "*" + (wnOpt.getD []).length), q.arr.data⟩
    else q.arr
  | _, _ => ⟨[], []⟩

/-- The per-quantity hypotheses of the round-trip theorem: the declared
quantity is present, uses no alias, declares the quantity's own units
(known to the unit table), and its declared dims — after substituting the
wildcard resolution — are exactly the quantity's stored dims. -/
def roundtripAligned (state : Dict DataArrayM) (wnOpt : Option (List String))
    (p : String × PropM) : Prop :=
  ∃ q u ds0,
    state.lookup p.1 = some q ∧
    q.unitsAttr = some u ∧ p.2.units? = some u ∧
    (unitTable.lookup u).isSome ∧
    p.2.alias? = none ∧
    p.2.dims? = some ds0 ∧
    q.arr.shape.length = q.dims.length ∧
    (("*" ∈ ds0 ∧ ∃ wn, wnOpt = some wn ∧
        spliceWildcard ds0 (ds0.indexOf "*") wn = q.dims) ∨
     ("*" ∉ ds0 ∧ ds0 = q.dims))

/-- Inflow marshalling under the round-trip hypotheses: each declared
quantity marshals to its own buffer, flattened over the wildcard window
when the declaration uses the wildcard. -/
theorem gnapLoop_ok (state : Dict DataArrayM) (wnOpt : Option (List String))
    (dl : Dict Nat) :
    ∀ (props : List (String × PropM)) (acc : Dict NArr),
      (∀ p ∈ props, ¬ acc.hasKey p.1) →
      (props.map Prod.fst).Nodup →
      (∀ p ∈ props, roundtripAligned state wnOpt p) →
      gnapLoop state wnOpt dl props acc =
        .ok (acc ++ props.map (fun p => (p.1, inflowArrOf state wnOpt p))) := by
  intro props
  induction props with
  | nil =>
    intro acc _ _ _
    simp [gnapLoop]
  | cons hd rest ih =>
    intro acc hfresh hnodup hal
    obtain ⟨name, p⟩ := hd
    rcases hal (name, p) (List.mem_cons_self _ _) with
      ⟨q, u, ds0, hq, hqu, hpu, hutab, hpal, hpd, hshlen, hcase⟩
    obtain ⟨qd, qa, qu⟩ := q
    subst hqu
    have hq' : state.lookup name = some ⟨qd, qa, some u⟩ := hq
    have hpu' : p.units? = some u := hpu
    have hpd' : p.dims? = some ds0 := hpd
    have hpal' : p.alias? = none := hpal
    have hshlen' : qa.shape.length = qd.length := hshlen
    have hens : ensure_quantity_has_units ⟨qd, qa, some u⟩ name =
        .ok () := rfl
    simp only [gnapLoop, hq', hens, hpu', Option.getD_some,
      to_units_self qd qa u hutab, hpd', hpal', Option.getD_none]
    have hset : Dict.set acc name (inflowArrOf state wnOpt (name, p)) =
        acc ++ [(name, inflowArrOf state wnOpt (name, p))] :=
      set_of_not_hasKey _ (hfresh (name, p) (List.mem_cons_self _ _))
    have hfresh2 : ∀ r ∈ rest,
        ¬ Dict.hasKey (acc ++ [(name, inflowArrOf state wnOpt (name, p))])
          r.1 = true := by
      intro r hr
      rw [hasKey_append]
      simp only [Bool.or_eq_true, not_or]
      refine ⟨hfresh r (List.mem_cons_of_mem _ hr), ?_⟩
      have hne : r.1 ≠ name := by
        intro he
        have : name ∈ rest.map Prod.fst := List.mem_map.2 ⟨r, hr, he⟩
        exact (List.nodup_cons.1 hnodup).1 this
      simp [Dict.hasKey, Ne.symm hne]
    have hrec := ih (acc ++ [(name, inflowArrOf state wnOpt (name, p))])
      hfresh2 (List.nodup_cons.1 hnodup).2
      (fun r hr => hal r (List.mem_cons_of_mem _ hr))
    rcases hcase with ⟨hstar, wn, hwn, hsplice⟩ | ⟨hstar, hds⟩
    · have hsplice' : spliceWildcard ds0 (ds0.indexOf "*") wn = qd :=
        hsplice
      simp only [hstar, ite_true]
      subst hwn
      dsimp only
      have hivof : inflowArrOf state (some wn) (name, p) =
          ⟨flatShape qa.shape (ds0.indexOf "*")
            (ds0.indexOf "*" + wn.length), qa.data⟩ := by
        unfold inflowArrOf
        simp only [hq', hpd', hstar, ite_true, Option.getD_some]
      rw [hsplice']
      rw [show get_numpy_array ⟨qd, qa, some u⟩ qd dl = qa from
        get_numpy_array_self ⟨qd, qa, some u⟩ dl]
      have hiwlt : ds0.indexOf "*" < ds0.length :=
        List.indexOf_lt_length.2 hstar
      have hqdlen : qd.length =
          ds0.indexOf "*" + wn.length + (ds0.length - ds0.indexOf "*" - 1)
          := by
        rw [← hsplice']
        unfold spliceWildcard
        simp only [List.length_append, List.length_take, List.length_drop]
        omega
      have hwin : ds0.indexOf "*" + wn.length ≤ qa.shape.length := by
        omega
      obtain ⟨sh, data⟩ := qa
      rw [flatten_wildcard_dims_flatShape sh data _ _ (by omega)
        (by simpa using hwin)]
      rw [← hivof]
      dsimp only
      rw [hset, hrec]
      simp
    · have hds' : ds0 = qd := hds
      simp only [hstar, ite_false]
      subst hds'
      have hivof : inflowArrOf state wnOpt (name, p) = qa := by
        unfold inflowArrOf
        simp only [hq', hpd', hstar, ite_false]
      rw [show get_numpy_array ⟨ds0, qa, some u⟩ ds0 dl = qa from
        get_numpy_array_self ⟨ds0, qa, some u⟩ dl]
      rw [← hivof]
      rw [hset, hrec]
      simp

/-- When every declared output carries its own dims and nothing is ignored,
`extractLoop` lists each quantity with its declared dims. -/
theorem extractLoop_ok (inProps : Dict PropM) :
    ∀ (props : List (String × PropM)) (acc : Dict (List String))
      (f : String × PropM → List String),
      (∀ p ∈ props, ¬ acc.hasKey p.1) →
      (props.map Prod.fst).Nodup →
      (∀ p ∈ props, p.2.dims? = some (f p)) →
      extractLoop inProps [] props acc =
        .ok (acc ++ props.map (fun p => (p.1, f p))) := by
  intro props
  induction props with
  | nil =>
    intro acc f _ _ _
    simp [extractLoop]
  | cons hd rest ih =>
    intro acc f hfresh hnodup hdims
    obtain ⟨name, p⟩ := hd
    have hd0 : p.dims? = some (f (name, p)) := hdims _ (List.mem_cons_self _ _)
    simp only [extractLoop, List.not_mem_nil, ite_false, hd0]
    have hset : Dict.set acc name (f (name, p)) =
        acc ++ [(name, f (name, p))] :=
      set_of_not_hasKey _ (hfresh (name, p) (List.mem_cons_self _ _))
    rw [hset]
    have hfresh2 : ∀ r ∈ rest,
        ¬ Dict.hasKey (acc ++ [(name, f (name, p))]) r.1 = true := by
      intro r hr
      rw [hasKey_append]
      simp only [Bool.or_eq_true, not_or]
      refine ⟨hfresh r (List.mem_cons_of_mem _ hr), ?_⟩
      have hne : r.1 ≠ name := by
        intro he
        have : name ∈ rest.map Prod.fst := List.mem_map.2 ⟨r, hr, he⟩
        exact (List.nodup_cons.1 hnodup).1 this
      simp [Dict.hasKey, Ne.symm hne]
    rw [ih _ f hfresh2 (List.nodup_cons.1 hnodup).2
      (fun r hr => hdims r (List.mem_cons_of_mem _ hr))]
    simp

/-- `enumFrom` distributes over append. -/
theorem enumFrom_append {α : Type} :
    ∀ (l1 l2 : List α) (n : Nat),
      List.enumFrom n (l1 ++ l2) =
        List.enumFrom n l1 ++ List.enumFrom (n + l1.length) l2 := by
  intro l1
  induction l1 with
  | nil => intro l2 n; simp
  | cons a t ih =>
    intro l2 n
    simp only [List.cons_append, List.enumFrom_cons, ih l2 (n + 1),
      List.length_cons]
    have harith : n + 1 + t.length = n + (t.length + 1) := by omega
    rw [harith]

/-- Looking up each of a list of bound dimension names succeeds with the
bound lengths. -/
theorem mapM_lookup_ok (dl : Dict Nat) :
    ∀ (names : List String) (lens : List Nat),
      names.length = lens.length →
      (∀ pr ∈ names.zip lens, dl.lookup pr.1 = some pr.2) →
      names.mapM (fun n => match dl.lookup n with
        | some l => Except.ok l
        | none => Except.error (Err.keyError n)) =
        (.ok lens : Except Err (List Nat)) := by
  intro names
  induction names with
  | nil =>
    intro lens hlen _
    cases lens with
    | nil => rfl
    | cons b bt => cases hlen
  | cons a t ih =>
    intro lens hlen hb
    cases lens with
    | nil => cases hlen
    | cons b bt =>
      have hab : dl.lookup a = some b :=
        hb (a, b) (by simp [List.zip_cons_cons])
      have ht := ih bt (by simpa using hlen)
        (fun pr hpr => hb pr (by simp [List.zip_cons_cons, hpr]))
      simp only [List.mapM_cons, hab, ht, bind, Except.bind]
      rfl

/-- `fillLoop` over a run of non-wildcard positions with bound lengths
accumulates the names and their lengths. -/
theorem fillLoop_run (dl : Dict Nat) (iW : Nat) (wnames : List String)
    (expandW : Bool) :
    ∀ (l : List String) (lens : List Nat) (n : Nat)
      (rest : List (Nat × String)) (odww : List String) (tgt : List Nat),
      (∀ j, j < l.length → n + j ≠ iW) →
      l.length = lens.length →
      (∀ pr ∈ l.zip lens, dl.lookup pr.1 = some pr.2) →
      fillLoop dl iW wnames expandW (List.enumFrom n l ++ rest) odww tgt =
        fillLoop dl iW wnames expandW rest (odww ++ l) (tgt ++ lens) := by
  intro l
  induction l with
  | nil =>
    intro lens n rest odww tgt _ hlen _
    cases lens with
    | nil => simp
    | cons b bt => cases hlen
  | cons a t ih =>
    intro lens n rest odww tgt hni hlen hb
    cases lens with
    | nil => cases hlen
    | cons b bt =>
      have hn : n ≠ iW := by
        have := hni 0 (by simp)
        simpa using this
      have hab : dl.lookup a = some b :=
        hb (a, b) (by simp [List.zip_cons_cons])
      simp only [List.enumFrom_cons, List.cons_append, fillLoop]
      rw [if_neg (by simp [hn]), if_neg hn]
      simp only [hab]
      have := ih bt (n + 1) rest (odww ++ [a]) (tgt ++ [b])
        (fun j hj => by
          have := hni (j + 1) (by simpa using Nat.succ_lt_succ hj)
          omega)
        (by simpa using hlen)
        (fun pr hpr => hb pr (by simp [List.zip_cons_cons, hpr]))
      simpa using this

/-- `fill_dims_wildcard` with every name bound: the wildcard expands to the
match names, and the target shape lists the bound lengths. -/
theorem fill_dims_wildcard_eq (dl : Dict Nat) (pre suf wn : List String)
    (shPre shWn shSuf : List Nat)
    (hpre_star : "*" ∉ pre)
    (hlp : pre.length = shPre.length)
    (hlw : wn.length = shWn.length)
    (hls : suf.length = shSuf.length)
    (hbound : ∀ pr ∈ (pre ++ wn ++ suf).zip (shPre ++ shWn ++ shSuf),
      dl.lookup pr.1 = some pr.2) :
    fill_dims_wildcard (pre ++ "*" :: suf) dl wn true =
      .ok (pre ++ wn ++ suf, shPre ++ shWn ++ shSuf) := by
  have hzip : (pre ++ wn ++ suf).zip (shPre ++ shWn ++ shSuf) =
      pre.zip shPre ++ wn.zip shWn ++ suf.zip shSuf := by
    rw [List.append_assoc, List.append_assoc,
      List.zip_append hlp, List.zip_append hlw]
    exact (List.append_assoc _ _ _).symm
  rw [hzip] at hbound
  have hbpre : ∀ pr ∈ pre.zip shPre, dl.lookup pr.1 = some pr.2 :=
    fun pr hpr => hbound pr (by simp [hpr])
  have hbwn : ∀ pr ∈ wn.zip shWn, dl.lookup pr.1 = some pr.2 :=
    fun pr hpr => hbound pr (by simp [hpr])
  have hbsuf : ∀ pr ∈ suf.zip shSuf, dl.lookup pr.1 = some pr.2 :=
    fun pr hpr => hbound pr (by simp [hpr])
  have hiW : (pre ++ "*" :: suf).indexOf "*" = pre.length := by
    rw [List.indexOf_append_of_not_mem hpre_star]
    simp [List.indexOf_cons_self]
  unfold fill_dims_wildcard
  rw [if_pos (by simp)]
  rw [hiW]
  rw [List.enum_eq_enumFrom, enumFrom_append]
  rw [fillLoop_run dl pre.length wn true pre shPre 0 _ [] []
    (fun j hj => by omega) hlp hbpre]
  rw [show List.enumFrom (0 + pre.length) ("*" :: suf) =
    (pre.length, "*") :: List.enumFrom (pre.length + 1) suf from by
    simp [List.enumFrom_cons]]
  simp only [fillLoop]
  rw [if_pos (by simp)]
  rw [mapM_lookup_ok dl wn shWn hlw hbwn]
  simp only [bind, Except.bind]
  rw [show List.enumFrom (pre.length + 1) suf =
    List.enumFrom (pre.length + 1) suf ++ [] from by simp]
  rw [fillLoop_run dl pre.length wn true suf shSuf (pre.length + 1) [] _ _
    (fun j hj => by omega) hls hbsuf]
  simp [fillLoop, List.append_assoc]

/-- Decomposition of the flattened shape over a three-segment split. -/
theorem flatShape_decomp (shPre shWn shSuf : List Nat) :
    flatShape (shPre ++ shWn ++ shSuf) shPre.length
      (shPre.length + shWn.length) =
      shPre ++ shapeProd shWn :: shSuf := by
  have htake : (shPre ++ shWn ++ shSuf).take shPre.length = shPre := by
    rw [List.append_assoc, List.take_left]
  have hdropPre : (shPre ++ shWn ++ shSuf).drop shPre.length =
      shWn ++ shSuf := by
    rw [List.append_assoc, List.drop_left]
  have hdropAll : (shPre ++ shWn ++ shSuf).drop
      (shPre.length + shWn.length) = shSuf := by
    rw [show shPre.length + shWn.length = (shPre ++ shWn).length from by
      simp]
    exact List.drop_left _ _
  unfold flatShape
  by_cases h0 : shPre.length = shPre.length + shWn.length
  · have hwn : shWn = [] := by
      have : shWn.length = 0 := by omega
      exact List.eq_nil_of_length_eq_zero this
    rw [if_pos h0, htake]
    subst hwn
    simp only [List.append_nil, List.nil_append] at hdropPre ⊢
    rw [hdropPre]
    rfl
  · rw [if_neg h0, htake, hdropAll, hdropPre]
    rw [show shPre.length + shWn.length - shPre.length = shWn.length from
      by omega]
    rw [List.take_left]

/-- The flattened shape has the same element count. -/
theorem shapeProd_flatShape_decomp (shPre shWn shSuf : List Nat) :
    shapeProd (flatShape (shPre ++ shWn ++ shSuf) shPre.length
      (shPre.length + shWn.length)) =
      shapeProd (shPre ++ shWn ++ shSuf) := by
  rw [flatShape_decomp]
  rw [shapeProd_append, shapeProd_append, shapeProd_append]
  rw [show shapeProd (shapeProd shWn :: shSuf) =
    shapeProd shWn * shapeProd shSuf from rfl]
  ring

/-- The in-restore dimension-length augmentation is the identity when every
non-wildcard dimension is already bound. -/
theorem dlAugment_id :
    ∀ (l : List (String × Nat)) (dl : Dict Nat),
      (∀ pr ∈ l, pr.1 ≠ "*" → Dict.hasKey dl pr.1 = true) →
      l.foldl (fun acc p =>
        if ¬ acc.hasKey p.1 ∧ p.1 ≠ "*" then acc.set p.1 p.2 else acc) dl =
        dl := by
  intro l
  induction l with
  | nil => intro dl _; rfl
  | cons pr rest ih =>
    intro dl hb
    rw [List.foldl_cons]
    have hstep : (if ¬ Dict.hasKey dl pr.1 ∧ pr.1 ≠ "*" then
        dl.set pr.1 pr.2 else dl) = dl := by
      by_cases hs : pr.1 = "*"
      · rw [if_neg (by simp [hs])]
      · rw [if_neg (by simp [hb pr (List.mem_cons_self _ _) hs])]
    rw [hstep]
    exact ih dl (fun p hp => hb p (List.mem_cons_of_mem _ hp))

/-- `expand_array_wildcard_dims` is a pure reshape when the counts agree. -/
theorem expand_array_wildcard_dims_ok (fs target : List Nat)
    (data : List ℚ) (name : String)
    (h : shapeProd fs = shapeProd target) :
    expand_array_wildcard_dims ⟨fs, data⟩ target name =
      .ok ⟨target, data⟩ := by
  unfold expand_array_wildcard_dims npReshape
  dsimp only
  rw [if_pos h]

/-- `check_array_shape` passes when the rank matches and every zipped
dimension is bound to its own length. -/
theorem check_array_shape_ok (out_dims : List String) (raw : NArr)
    (name : String) (dl : Dict Nat)
    (hrank : out_dims.length = raw.shape.length)
    (hb : ∀ pr ∈ out_dims.zip raw.shape, dl.lookup pr.1 = some pr.2) :
    check_array_shape out_dims raw name dl = .ok () := by
  unfold check_array_shape
  rw [if_neg (by simp [hrank])]
  have : (out_dims.zip raw.shape).find? (fun p =>
      match dl.lookup p.1 with
      | some l => l ≠ p.2
      | none => false) = none := by
    rw [List.find?_eq_none]
    intro p hp
    rw [hb p hp]
    simp
  rw [this]

/-- An element never occurs before its first index. -/
theorem not_mem_take_indexOf (l : List String) (a : String) :
    a ∉ l.take (l.indexOf a) := by
  induction l with
  | nil => simp
  | cons b t ih =>
    by_cases h : b = a
    · rw [List.indexOf_cons_eq t h]
      simp
    · rw [List.indexOf_cons_ne t h, List.take_succ_cons]
      intro hc
      rcases List.mem_cons.1 hc with rfl | hc2
      · exact h rfl
      · exact ih hc2

/-- Splitting a list at the first occurrence of a member. -/
theorem indexOf_decomp {l : List String} {a : String} (h : a ∈ l) :
    l.take (l.indexOf a) ++ a :: l.drop (l.indexOf a + 1) = l := by
  have hlt : l.indexOf a < l.length := List.indexOf_lt_length.2 h
  have hget : l[l.indexOf a] = a := List.getElem_indexOf hlt
  have := List.take_append_drop (l.indexOf a) l
  rw [List.drop_eq_getElem_cons hlt, hget] at this
  exact this

/-- Outflow marshalling under the round-trip hypotheses: each entry is
restored to the described `DataArray`. -/
theorem restoreLoop_ok (raw_arrays : Dict NArr) (props : Dict PropM)
    (wnOpt : Option (List String)) (dl : Dict Nat)
    (g : String × List String → DataArrayM) :
    ∀ (entries : List (String × List String)) (acc : Dict DataArrayM),
      (∀ e ∈ entries, ¬ acc.hasKey e.1) →
      (entries.map Prod.fst).Nodup →
      (∀ e ∈ entries, ∃ p u,
        props.lookup e.1 = some p ∧ p.alias? = none ∧ p.units? = some u ∧
        (("*" ∈ e.2 ∧ ∃ pre suf wn shPre shWn shSuf rdata,
            e.2 = pre ++ "*" :: suf ∧ "*" ∉ pre ∧ wnOpt = some wn ∧
            pre.length = shPre.length ∧ wn.length = shWn.length ∧
            suf.length = shSuf.length ∧
            (∀ pr ∈ (pre ++ wn ++ suf).zip (shPre ++ shWn ++ shSuf),
              dl.lookup pr.1 = some pr.2) ∧
            raw_arrays.lookup e.1 = some ⟨flatShape (shPre ++ shWn ++ shSuf)
              pre.length (pre.length + wn.length), rdata⟩ ∧
            g e = ⟨pre ++ wn ++ suf, ⟨shPre ++ shWn ++ shSuf, rdata⟩,
              some u⟩) ∨
         ("*" ∉ e.2 ∧ ∃ rawA, raw_arrays.lookup e.1 = some rawA ∧
            e.2.length = rawA.shape.length ∧
            (∀ pr ∈ e.2.zip rawA.shape, dl.lookup pr.1 = some pr.2) ∧
            g e = ⟨e.2, rawA, some u⟩))) →
      restoreLoop raw_arrays props props wnOpt dl [] entries acc =
        .ok (acc ++ entries.map (fun e => (e.1, g e))) := by
  intro entries
  induction entries with
  | nil =>
    intro acc _ _ _
    simp [restoreLoop]
  | cons hd rest ih =>
    intro acc hfresh hnodup hent
    obtain ⟨name, ds0⟩ := hd
    rcases hent (name, ds0) (List.mem_cons_self _ _) with
      ⟨p, u, hp, hpal, hpu, hcase⟩
    have hpal' : p.alias? = none := hpal
    have hpu' : p.units? = some u := hpu
    have halias : get_alias_or_name name props props = name := by
      unfold get_alias_or_name
      rw [hp]
      simp [hpal']
    have hset : ∀ v : DataArrayM, Dict.set acc name v = acc ++ [(name, v)] :=
      fun v => set_of_not_hasKey v (hfresh (name, ds0)
        (List.mem_cons_self _ _))
    have hfresh2 : ∀ (v : DataArrayM) (r : String × List String),
        r ∈ rest → ¬ Dict.hasKey (acc ++ [(name, v)]) r.1 = true := by
      intro v r hr
      rw [hasKey_append]
      simp only [Bool.or_eq_true, not_or]
      refine ⟨hfresh r (List.mem_cons_of_mem _ hr), ?_⟩
      have hne : r.1 ≠ name := by
        intro he
        have : name ∈ rest.map Prod.fst := List.mem_map.2 ⟨r, hr, he⟩
        exact (List.nodup_cons.1 hnodup).1 this
      simp [Dict.hasKey, Ne.symm hne]
    have hrec : ∀ v : DataArrayM,
        restoreLoop raw_arrays props props wnOpt dl [] rest
          (acc ++ [(name, v)]) =
        .ok (acc ++ [(name, v)] ++
          rest.map (fun e => (e.1, g e))) :=
      fun v => ih (acc ++ [(name, v)]) (hfresh2 v)
        (List.nodup_cons.1 hnodup).2
        (fun r hr => hent r (List.mem_cons_of_mem _ hr))
    rcases hcase with
      ⟨hstar, pre, suf, wn, shPre, shWn, shSuf, rdata, hds, hpre, hwn,
        hlp, hlw, hls, hbound, hraw, hg⟩ |
      ⟨hstar, rawA, hraw, hrank, hbound, hg⟩
    · subst hwn
      subst hds
      have hiW : (pre ++ "*" :: suf).indexOf "*" = pre.length := by
        rw [List.indexOf_append_of_not_mem hpre]
        simp [List.indexOf_cons_self]
      have hrawshape : flatShape (shPre ++ shWn ++ shSuf) pre.length
          (pre.length + wn.length) = shPre ++ shapeProd shWn :: shSuf := by
        rw [hlp, hlw]
        exact flatShape_decomp shPre shWn shSuf
      have hzipsplit : (pre ++ "*" :: suf).zip
          (shPre ++ shapeProd shWn :: shSuf) =
          pre.zip shPre ++ ("*", shapeProd shWn) :: suf.zip shSuf := by
        rw [List.zip_append hlp, List.zip_cons_cons]
      have hzip3 : (pre ++ wn ++ suf).zip (shPre ++ shWn ++ shSuf) =
          pre.zip shPre ++ wn.zip shWn ++ suf.zip shSuf := by
        rw [List.append_assoc, List.append_assoc,
          List.zip_append hlp, List.zip_append hlw]
        exact (List.append_assoc _ _ _).symm
      have hbound3 := hbound
      rw [hzip3] at hbound3
      have hbpre : ∀ pr ∈ pre.zip shPre, dl.lookup pr.1 = some pr.2 :=
        fun pr hpr => hbound3 pr (by simp [hpr])
      have hbsuf : ∀ pr ∈ suf.zip shSuf, dl.lookup pr.1 = some pr.2 :=
        fun pr hpr => hbound3 pr (by simp [hpr])
      have haug : ((pre ++ "*" :: suf).zip
          (shPre ++ shapeProd shWn :: shSuf)).foldl (fun acc p =>
          if ¬ acc.hasKey p.1 ∧ p.1 ≠ "*" then acc.set p.1 p.2 else acc)
          dl = dl := by
        apply dlAugment_id
        intro pr hpr hprs
        rw [hzipsplit] at hpr
        rcases List.mem_append.1 hpr with hpr1 | hpr2
        · exact hasKey_of_lookup_some (hbpre pr hpr1)
        · rcases List.mem_cons.1 hpr2 with rfl | hpr3
          · exact absurd rfl hprs
          · exact hasKey_of_lookup_some (hbsuf pr hpr3)
      have hfill : fill_dims_wildcard (pre ++ "*" :: suf) dl wn true =
          .ok (pre ++ wn ++ suf, shPre ++ shWn ++ shSuf) :=
        fill_dims_wildcard_eq dl pre suf wn shPre shWn shSuf hpre hlp hlw
          hls hbound
      have hexp : expand_array_wildcard_dims
          ⟨flatShape (shPre ++ shWn ++ shSuf) pre.length
            (pre.length + wn.length), rdata⟩
          (shPre ++ shWn ++ shSuf) name = .ok ⟨shPre ++ shWn ++ shSuf,
            rdata⟩ := by
        apply expand_array_wildcard_dims_ok
        rw [hlp, hlw]
        exact shapeProd_flatShape_decomp shPre shWn shSuf
      simp only [restoreLoop, List.not_mem_nil, ite_false, hp, hpu',
        Option.some_bind, halias, hraw, hstar, ite_true, hrawshape, haug,
        hfill, hexp]
      rw [← hrawshape] at haug ⊢
      simp only [haug, hfill, hexp]
      rw [hset, hrec]
      simp [hg]
    · have hok : check_array_shape ds0 rawA name dl = .ok () :=
        check_array_shape_ok ds0 rawA name dl hrank hbound
      simp only [restoreLoop, List.not_mem_nil, ite_false, hp, hpu',
        Option.some_bind, halias, hraw, hstar, ite_false, hok]
      rw [hset, hrec]
      simp [hg]

/-! ## Claim C3 -/

/-- C3 (amended): marshal-inflow followed by marshal-outflow through one
property declaration reproduces every declared quantity exactly — same
data, dims and units — provided the declaration is aligned with the state:
no aliases, declared units equal to (and known for) each quantity's stored
units, and declared dims (after substituting the wildcard resolution) equal
to each quantity's own stored dimension order. -/
theorem C3_roundtrip_aligned (state : Dict DataArrayM) (props : Dict PropM)
    (wnOpt : Option (List String)) (dl : Dict Nat)
    (hgw : get_wildcard_matches_and_dim_lengths state props =
      .ok (wnOpt, dl))
    (hnodup : (Dict.keys props).Nodup)
    (hal : ∀ p ∈ props, roundtripAligned state wnOpt p) :
    ∃ raw restored,
      get_numpy_arrays_with_properties state props = .ok raw ∧
      restore_data_arrays_with_properties raw props state props none
        false = .ok restored ∧
      ∀ p ∈ props, restored.lookup p.1 = state.lookup p.1 := by
  have hnodup' : (props.map Prod.fst).Nodup := hnodup
  -- the inflow output
  have hraw : get_numpy_arrays_with_properties state props =
      .ok (props.map (fun p => (p.1, inflowArrOf state wnOpt p))) := by
    unfold get_numpy_arrays_with_properties
    rw [hgw]
    have := gnapLoop_ok state wnOpt dl props []
      (by intro p _; simp [Dict.hasKey]) hnodup' hal
    simp only [bind, Except.bind]
    simpa using this
  refine ⟨props.map (fun p => (p.1, inflowArrOf state wnOpt p)),
    props.map (fun p => (p.1,
      match state.lookup p.1 with
      | some q => q
      | none => ⟨[], ⟨[], []⟩, none⟩)), hraw, ?_, ?_⟩
  · -- the outflow reproduces the original quantities
    have hdims : ∀ p ∈ props, p.2.dims? = some ((p.2.dims?).getD []) := by
      intro p hp
      rcases hal p hp with ⟨q, u, ds0, -, -, -, -, -, hpd, -, -⟩
      rw [hpd]
      rfl
    have hex : extract_output_dims_properties props props [] =
        .ok (props.map (fun p => (p.1, (p.2.dims?).getD []))) := by
      unfold extract_output_dims_properties
      have := extractLoop_ok props props []
        (fun p => (p.2.dims?).getD [])
        (by intro p _; simp [Dict.hasKey]) hnodup' hdims
      simpa using this
    have hentnodup : ((props.map (fun p =>
        (p.1, (p.2.dims?).getD []))).map Prod.fst).Nodup := by
      rw [List.map_map]
      simpa using hnodup'
    have hloop := restoreLoop_ok
      (props.map (fun p => (p.1, inflowArrOf state wnOpt p)))
      props wnOpt dl
      (fun e => match state.lookup e.1 with
        | some q => q
        | none => ⟨[], ⟨[], []⟩, none⟩)
      (props.map (fun p => (p.1, (p.2.dims?).getD []))) []
      (by intro e _; simp [Dict.hasKey]) hentnodup ?_
    · unfold restore_data_arrays_with_properties
      rw [hgw]
      simp only [bind, Except.bind, Option.getD_none, Bool.false_eq_true,
        ite_false, hex]
      rw [hloop]
      have hmapeq : (props.map (fun p => (p.1, (p.2.dims?).getD []))).map
          (fun e => (e.1, match state.lookup e.1 with
            | some q => q
            | none => (⟨[], ⟨[], []⟩, none⟩ : DataArrayM))) =
          props.map (fun p => (p.1,
            match state.lookup p.1 with
            | some q => q
            | none => (⟨[], ⟨[], []⟩, none⟩ : DataArrayM))) := by
        rw [List.map_map]
        rfl
      rw [hmapeq]
      simp
    · -- the per-entry hypotheses of the restore loop
      intro e he
      rcases List.mem_map.1 he with ⟨p, hp, rfl⟩
      rcases hal p hp with ⟨q, u, ds0, hq, hqu, hpu, hutab, hpal, hpd,
        hshlen, hcase⟩
      have hpe : props.lookup p.1 = some p.2 := by
        have : (p.1, p.2) ∈ props := by simpa using hp
        exact lookup_of_mem_nodup this hnodup
      refine ⟨p.2, u, hpe, hpal, hpu, ?_⟩
      have hds0 : (p.2.dims?).getD [] = ds0 := by rw [hpd]; rfl
      have hrawp : (props.map (fun r =>
          (r.1, inflowArrOf state wnOpt r))).lookup p.1 =
          some (inflowArrOf state wnOpt p) := by
        apply lookup_of_mem_nodup
        · exact List.mem_map.2 ⟨p, hp, rfl⟩
        · show ((props.map (fun r => (r.1, inflowArrOf state wnOpt r))).map
            Prod.fst).Nodup
          rw [List.map_map]
          simpa using hnodup'
      rcases hcase with ⟨hstar, wn, hwn, hsplice⟩ | ⟨hstar, hds⟩
      · left
        subst hwn
        have hiW : ds0.indexOf "*" < ds0.length :=
          List.indexOf_lt_length.2 hstar
        have hdecomp : ds0.take (ds0.indexOf "*") ++ "*" ::
            ds0.drop (ds0.indexOf "*" + 1) = ds0 := indexOf_decomp hstar
        have hprelen : (ds0.take (ds0.indexOf "*")).length =
            ds0.indexOf "*" := by
          rw [List.length_take]
          omega
        have hqdims : ds0.take (ds0.indexOf "*") ++ wn ++
            ds0.drop (ds0.indexOf "*" + 1) = q.dims := hsplice
        have hshtotal : q.arr.shape.length =
            ds0.indexOf "*" + wn.length +
              (ds0.length - (ds0.indexOf "*" + 1)) := by
          rw [hshlen, ← hqdims]
          simp only [List.length_append, List.length_take, List.length_drop]
          omega
        have h1 : (q.arr.shape.drop (ds0.indexOf "*")).drop wn.length =
            q.arr.shape.drop (ds0.indexOf "*" + wn.length) := by
          rw [List.drop_drop]
        have hsheq : q.arr.shape.take (ds0.indexOf "*") ++
            (q.arr.shape.drop (ds0.indexOf "*")).take wn.length ++
            q.arr.shape.drop (ds0.indexOf "*" + wn.length) =
            q.arr.shape := by
          rw [List.append_assoc, ← h1, List.take_append_drop,
            List.take_append_drop]
        refine ⟨by rw [hds0]; exact hstar,
          ds0.take (ds0.indexOf "*"), ds0.drop (ds0.indexOf "*" + 1),
          wn,
          q.arr.shape.take (ds0.indexOf "*"),
          (q.arr.shape.drop (ds0.indexOf "*")).take wn.length,
          q.arr.shape.drop (ds0.indexOf "*" + wn.length),
          q.arr.data, ?_, ?_, rfl, ?_, ?_, ?_, ?_, ?_, ?_⟩
        · rw [hds0]
          exact hdecomp.symm
        · exact not_mem_take_indexOf ds0 "*"
        · rw [hprelen, List.length_take]
          omega
        · rw [List.length_take, List.length_drop]
          omega
        · rw [List.length_drop, List.length_drop]
          omega
        · -- the dim-length bounds, via the decomposition of the shape
          intro pr hpr
          refine dim_lengths_correct state props (some wn) dl hgw p hp q hq
            pr ?_
          rw [← hqdims, ← hsheq]
          exact hpr
        · -- the raw buffer is the flattened original
          have hiv : inflowArrOf state (some wn) p =
              ⟨flatShape q.arr.shape (ds0.indexOf "*")
                (ds0.indexOf "*" + wn.length), q.arr.data⟩ := by
            unfold inflowArrOf
            rw [hq, hpd]
            dsimp only
            rw [if_pos hstar]
            rfl
          exact hrawp.trans (by rw [hiv, hprelen, hsheq])
        · -- the restored quantity is the original
          show (match state.lookup p.1 with
              | some q => q
              | none => (⟨[], ⟨[], []⟩, none⟩ : DataArrayM)) =
            ⟨ds0.take (ds0.indexOf "*") ++ wn ++
                ds0.drop (ds0.indexOf "*" + 1),
              ⟨q.arr.shape.take (ds0.indexOf "*") ++
                (q.arr.shape.drop (ds0.indexOf "*")).take wn.length ++
                q.arr.shape.drop (ds0.indexOf "*" + wn.length),
                q.arr.data⟩, some u⟩
          rw [hq, hqdims, hsheq, ← hqu]
      · right
        refine ⟨?_, q.arr, ?_, ?_, ?_, ?_⟩
        · rw [hds0]
          exact hstar
        · have hiv : inflowArrOf state wnOpt p = q.arr := by
            unfold inflowArrOf
            rw [hq, hpd]
            dsimp only
            rw [if_neg hstar]
          exact hrawp.trans (by rw [hiv])
        · rw [hds0, hds, hshlen]
        · rw [hds0, hds]
          exact dim_lengths_correct state props wnOpt dl hgw p hp q hq
        · show (match state.lookup p.1 with
              | some q => q
              | none => (⟨[], ⟨[], []⟩, none⟩ : DataArrayM)) =
            ⟨(p.2.dims?).getD [], q.arr, some u⟩
          rw [hds0, hds, hq, ← hqu]
  · -- the restored dictionary agrees with the state on every declared name
    intro p hp
    rcases hal p hp with ⟨q, u, ds0, hq, -⟩
    have hmem : (p.1, (match state.lookup p.1 with
        | some q => q
        | none => (⟨[], ⟨[], []⟩, none⟩ : DataArrayM))) ∈
        props.map (fun r => (r.1, match state.lookup r.1 with
          | some q => q
          | none => (⟨[], ⟨[], []⟩, none⟩ : DataArrayM))) :=
      List.mem_map.2 ⟨p, hp, rfl⟩
    have hnd : (Dict.keys (props.map (fun r => (r.1,
        match state.lookup r.1 with
        | some q => q
        | none => (⟨[], ⟨[], []⟩, none⟩ : DataArrayM))))).Nodup := by
      show ((props.map _).map Prod.fst).Nodup
      rw [List.map_map]
      simpa using hnodup'
    rw [lookup_of_mem_nodup hmem hnd, hq]

/-- C3: counterexample to the unconditional round-trip claim — a quantity
stored with dims `["b","a"]` marshalled through a declaration with dims
`["a","b"]` (same units) round-trips to a quantity with the declared (not
the original) dimension order and transposed data. -/
theorem C3_counterexample :
    get_numpy_arrays_with_properties
      [("q", ⟨["b", "a"], ⟨[2, 2], [1, 2, 3, 4]⟩, some "m"⟩)]
      [("q", ⟨some ["a", "b"], some "m", none⟩)] =
      .ok [("q", ⟨[2, 2], [1, 3, 2, 4]⟩)] ∧
    restore_data_arrays_with_properties
      [("q", ⟨[2, 2], [1, 3, 2, 4]⟩)]
      [("q", ⟨some ["a", "b"], some "m", none⟩)]
      [("q", ⟨["b", "a"], ⟨[2, 2], [1, 2, 3, 4]⟩, some "m"⟩)]
      [("q", ⟨some ["a", "b"], some "m", none⟩)] none false =
      .ok [("q", ⟨["a", "b"], ⟨[2, 2], [1, 3, 2, 4]⟩, some "m"⟩)] ∧
    (⟨["a", "b"], ⟨[2, 2], [1, 3, 2, 4]⟩, some "m"⟩ : DataArrayM) ≠
      ⟨["b", "a"], ⟨[2, 2], [1, 2, 3, 4]⟩, some "m"⟩ :=
  ⟨by rfl, by rfl, by decide⟩

/-- Witness: the aligned round-trip theorem applied to a concrete state
with one quantity of dims `["b","a"]` declared as `["b","*"]`, where the
wildcard resolves to `["a"]`. -/
theorem C3_roundtrip_aligned_witness :
    ∃ raw restored,
      get_numpy_arrays_with_properties
        [("q", ⟨["b", "a"], ⟨[2, 3], [1, 2, 3, 4, 5, 6]⟩, some "m"⟩)]
        [("q", ⟨some ["b", "*"], some "m", none⟩)] = .ok raw ∧
      restore_data_arrays_with_properties raw
        [("q", ⟨some ["b", "*"], some "m", none⟩)]
        [("q", ⟨["b", "a"], ⟨[2, 3], [1, 2, 3, 4, 5, 6]⟩, some "m"⟩)]
        [("q", ⟨some ["b", "*"], some "m", none⟩)] none false =
        .ok restored ∧
      ∀ p ∈ [("q", (⟨some ["b", "*"], some "m", none⟩ : PropM))],
        restored.lookup p.1 = Dict.lookup
          [("q", ⟨["b", "a"], ⟨[2, 3], [1, 2, 3, 4, 5, 6]⟩, some "m"⟩)]
          p.1 :=
  C3_roundtrip_aligned
    [("q", ⟨["b", "a"], ⟨[2, 3], [1, 2, 3, 4, 5, 6]⟩, some "m"⟩)]
    [("q", ⟨some ["b", "*"], some "m", none⟩)]
    (some ["a"]) [("b", 2), ("a", 3)]
    (by rfl) (by decide)
    (by
      intro p hp
      rw [List.mem_singleton] at hp
      subst hp
      exact ⟨⟨["b", "a"], ⟨[2, 3], [1, 2, 3, 4, 5, 6]⟩, some "m"⟩, "m",
        ["b", "*"], rfl, rfl, rfl, by decide, rfl, rfl, rfl,
        Or.inl ⟨by decide, ["a"], rfl, rfl⟩⟩)

/-! ## Timesteppers (`_core/state.py`, `_components/timesteppers.py`)

Model states and tendency dictionaries as rational-valued dictionaries
(each quantity one scalar; floats as exact rationals).  The prognostic
component is a function from state and timestep to a tendency dictionary
(diagnostics are not modelled).  Python's in-place mutation of dictionaries
becomes explicit threading; `KeyError` and `ValueError` become `Except`
errors.  `convert_tendencies_units_for_state` only rewrites entries that
are `DataArray`s with a `units` attribute; on the raw dictionaries modelled
here it leaves every entry unchanged. -/

/-- `state.copy_untouched_quantities`: copy every key of `old_state` that is
absent from `new_state` into `new_state` (appended in `old_state` order). -/
def copy_untouched_quantities : Dict ℚ → Dict ℚ → Dict ℚ
  | [], new_state => new_state
  | kv :: rest, new_state =>
    copy_untouched_quantities rest
      (if Dict.hasKey new_state kv.1 then new_state
       else Dict.set new_state kv.1 kv.2)

/-- The loop of `state.add` over `state_1`'s non-`"time"` items; looking up
a key absent from `state_2` is Python's `KeyError`. -/
def addLoop (s2 : Dict ℚ) : List (String × ℚ) → Dict ℚ →
    Except Err (Dict ℚ)
  | [], out => .ok out
  | (k, v) :: rest, out =>
    if k = "time" then addLoop s2 rest out
    else
      match s2.lookup k with
      | some v2 => addLoop s2 rest (Dict.set out k (v + v2))
      | none => .error (.keyError k)

/-- `state.add`: keyed sum of two states, carrying `state_1`'s `"time"`
through unchanged. -/
def add (state_1 state_2 : Dict ℚ) : Except Err (Dict ℚ) :=
  addLoop state_2 state_1
    (match state_1.lookup "time" with
     | some t => [("time", t)]
     | none => [])

/-- The loop of `state.multiply` over `state`'s non-`"time"` items. -/
def mulLoop (scalar : ℚ) : List (String × ℚ) → Dict ℚ → Dict ℚ
  | [], out => out
  | (k, v) :: rest, out =>
    if k = "time" then mulLoop scalar rest out
    else mulLoop scalar rest (Dict.set out k (scalar * v))

/-- `state.multiply`: scale every non-`"time"` entry, carrying `"time"`
through unchanged. -/
def multiply (scalar : ℚ) (state : Dict ℚ) : Dict ℚ :=
  mulLoop scalar state
    (match state.lookup "time" with
     | some t => [("time", t)]
     | none => [])

/-- `convert_tendencies_units_for_state` rewrites only `DataArray` entries
carrying a `units` attribute; raw (scalar) tendency dictionaries pass
through unchanged. -/
def convert_tendencies_units_for_state (tendencies : Dict ℚ)
    (_state : Dict ℚ) : Dict ℚ :=
  tendencies

/-- `step_forward_euler`: one explicit Euler step over the tendency keys.
A tendency key absent from the state is Python's `KeyError`. -/
def step_forward_euler (state tendencies : Dict ℚ) (dt : ℚ) :
    Except Err (Dict ℚ) :=
  tendencies.mapM (fun kv =>
    match state.lookup kv.1 with
    | some v => .ok (kv.1, v + kv.2 * dt)
    | none => .error (.keyError kv.1))

/-- Python's negative list index from the end: `tl[-i]`.  All source call
sites index within bounds (the list length equals the used order). -/
def nthFromEnd (tl : List (Dict ℚ)) (i : Nat) : Dict ℚ :=
  tl.getD (tl.length - i) []

/-- `second_bashforth` with the source's coefficients `1.5`, `-0.5`. -/
def second_bashforth (state : Dict ℚ) (tl : List (Dict ℚ)) (dt : ℚ) :
    Except Err (Dict ℚ) :=
  (tl.headD []).mapM (fun kv =>
    match state.lookup kv.1, (nthFromEnd tl 1).lookup kv.1,
        (nthFromEnd tl 2).lookup kv.1 with
    | some s, some t1, some t2 =>
      .ok (kv.1, s + dt * ((3/2 : ℚ) * t1 - (1/2 : ℚ) * t2))
    | _, _, _ => .error (.keyError kv.1))

/-- `third_bashforth` with coefficients `23/12`, `-4/3`, `5/12`. -/
def third_bashforth (state : Dict ℚ) (tl : List (Dict ℚ)) (dt : ℚ) :
    Except Err (Dict ℚ) :=
  (tl.headD []).mapM (fun kv =>
    match state.lookup kv.1, (nthFromEnd tl 1).lookup kv.1,
        (nthFromEnd tl 2).lookup kv.1, (nthFromEnd tl 3).lookup kv.1 with
    | some s, some t1, some t2, some t3 =>
      .ok (kv.1, s + dt * ((23/12 : ℚ) * t1 - (4/3 : ℚ) * t2 +
        (5/12 : ℚ) * t3))
    | _, _, _, _ => .error (.keyError kv.1))

/-- `fourth_bashforth` with coefficients `55/24`, `-59/24`, `37/24`,
`-3/8`. -/
def fourth_bashforth (state : Dict ℚ) (tl : List (Dict ℚ)) (dt : ℚ) :
    Except Err (Dict ℚ) :=
  (tl.headD []).mapM (fun kv =>
    match state.lookup kv.1, (nthFromEnd tl 1).lookup kv.1,
        (nthFromEnd tl 2).lookup kv.1, (nthFromEnd tl 3).lookup kv.1,
        (nthFromEnd tl 4).lookup kv.1 with
    | some s, some t1, some t2, some t3, some t4 =>
      .ok (kv.1, s + dt * ((55/24 : ℚ) * t1 - (59/24 : ℚ) * t2 +
        (37/24 : ℚ) * t3 - (3/8 : ℚ) * t4))
    | _, _, _, _, _ => .error (.keyError kv.1))

/-- The mutable attributes of an `AdamsBashforth` instance. -/
structure ABMachine where
  order : Nat
  timestep : Option ℚ
  tendencies_list : List (Dict ℚ)
deriving Repr, DecidableEq

/-- `AdamsBashforth._ensure_constant_timestep`: record the first timestep,
reject any later differing one. -/
def ab_ensure_constant_timestep (m : ABMachine) (dt : ℚ) :
    Except Err ABMachine :=
  match m.timestep with
  | none => .ok ⟨m.order, some dt, m.tendencies_list⟩
  | some t =>
    if t = dt then .ok m
    else .error (.valueError
      "timestep must be constant for Adams-Bashforth time stepping")

/-- `AdamsBashforth._perform_step`: use the lower order while fewer
tendencies have accumulated (`order = min(self._order, len(list))`). -/
def perform_step (m : ABMachine) (state : Dict ℚ) (dt : ℚ) :
    Except Err (Dict ℚ) :=
  let order := min m.order m.tendencies_list.length
  if order = 1 then
    step_forward_euler state (nthFromEnd m.tendencies_list 1) dt
  else if order = 2 then second_bashforth state m.tendencies_list dt
  else if order = 3 then third_bashforth state m.tendencies_list dt
  else if order = 4 then fourth_bashforth state m.tendencies_list dt
  else .error (.runtimeError "order should be integer between 1 and 4")

/-- `AdamsBashforth._call`: check the timestep, evaluate and append the
tendencies, step, copy untouched quantities, and pop the oldest tendencies
once the list has reached the configured order. -/
def ab_call (m : ABMachine) (prog : Dict ℚ → ℚ → Dict ℚ)
    (state : Dict ℚ) (dt : ℚ) : Except Err (ABMachine × Dict ℚ) :=
  match ab_ensure_constant_timestep m dt with
  | .error e => .error e
  | .ok m1 =>
    let tendencies := convert_tendencies_units_for_state (prog state dt)
      state
    let m2 : ABMachine :=
      ⟨m1.order, m1.timestep, m1.tendencies_list ++ [tendencies]⟩
    match perform_step m2 state dt with
    | .error e => .error e
    | .ok ns =>
      let new_state := copy_untouched_quantities state ns
      let m3 : ABMachine :=
        if m2.tendencies_list.length = m2.order then
          ⟨m2.order, m2.timestep, m2.tendencies_list.tail⟩
        else m2
      .ok (m3, new_state)

/-- The mutable attributes of a `Leapfrog` instance. -/
structure LFMachine where
  old_state : Option (Dict ℚ)
  asselin_strength : ℚ
  timestep : Option ℚ
  alpha : ℚ
deriving Repr, DecidableEq

/-- `Leapfrog._ensure_constant_timestep`. -/
def lf_ensure_constant_timestep (m : LFMachine) (dt : ℚ) :
    Except Err LFMachine :=
  match m.timestep with
  | none => .ok ⟨m.old_state, m.asselin_strength, some dt, m.alpha⟩
  | some t =>
    if t = dt then .ok m
    else .error (.valueError
      "timestep must be constant for Leapfrog time stepping")

/-- The loop of `step_leapfrog`: for each tendency key, leapfrog the value
and apply the Robert-Asselin-Williams filter, updating the current state in
place and accumulating the new state. -/
def lfLoop (old_state : Dict ℚ) (dt asselin alpha : ℚ) :
    List (String × ℚ) → Dict ℚ → Dict ℚ →
    Except Err (Dict ℚ × Dict ℚ)
  | [], state, new_state => .ok (state, new_state)
  | (k, t) :: rest, state, new_state =>
    match old_state.lookup k, state.lookup k with
    | some ov, some sv =>
      let nv := ov + 2 * t * dt
      let infl := (1/2 : ℚ) * asselin * (ov - 2 * sv + nv)
      let nv1 := if alpha ≠ 1 then nv + (alpha - 1) * infl else nv
      lfLoop old_state dt asselin alpha rest
        (Dict.set state k (sv + alpha * infl)) (Dict.set new_state k nv1)
    | _, _ => .error (.keyError k)

/-- `step_leapfrog`: returns the (filtered) current state and the new
state. -/
def step_leapfrog (old_state state tendencies : Dict ℚ) (dt : ℚ)
    (asselin_strength alpha : ℚ) : Except Err (Dict ℚ × Dict ℚ) :=
  lfLoop old_state dt asselin_strength alpha tendencies state []

/-- `Leapfrog._call`: Euler on the first call, leapfrog with the Asselin
filter afterwards; untouched quantities are copied from the (filtered)
current state.  (The source also writes the filtered values back into the
caller's dictionary; only the returned new state and the stored machine
state are modelled.) -/
def lf_call (m : LFMachine) (prog : Dict ℚ → ℚ → Dict ℚ)
    (state : Dict ℚ) (dt : ℚ) : Except Err (LFMachine × Dict ℚ) :=
  match lf_ensure_constant_timestep m dt with
  | .error e => .error e
  | .ok m1 =>
    let tendencies := convert_tendencies_units_for_state (prog state dt)
      state
    match m1.old_state with
    | none =>
      match step_forward_euler state tendencies dt with
      | .error e => .error e
      | .ok ns =>
        .ok (⟨some state, m1.asselin_strength, m1.timestep, m1.alpha⟩,
          copy_untouched_quantities state ns)
    | some old =>
      match step_leapfrog old state tendencies dt m1.asselin_strength
          m1.alpha with
      | .error e => .error e
      | .ok (state2, ns) =>
        .ok (⟨some state2, m1.asselin_strength, m1.timestep, m1.alpha⟩,
          copy_untouched_quantities state2 ns)

/-- The attributes of an `SSPRungeKutta` instance: the stage count and the
internal order-1 Adams-Bashforth (Euler) stepper. -/
structure SSPMachine where
  stages : Nat
  euler : ABMachine
deriving Repr, DecidableEq

/-- `SSPRungeKutta.__init__`: `stages` must be 2 or 3; the internal Euler
stepper is `AdamsBashforth(order=1)`. -/
def ssp_init (stages : Nat) : Except Err SSPMachine :=
  if stages = 2 ∨ stages = 3 then .ok ⟨stages, ⟨1, none, []⟩⟩
  else .error (.valueError "stages must be one of 2 or 3")

/-- `SSPRungeKutta._step_2_stages`: average of the starting state and two
consecutive Euler sub-steps. -/
def step_2_stages (m : SSPMachine) (prog : Dict ℚ → ℚ → Dict ℚ)
    (state : Dict ℚ) (dt : ℚ) : Except Err (SSPMachine × Dict ℚ) :=
  match ab_call m.euler prog state dt with
  | .error e => .error e
  | .ok (e1, state_1) =>
    match ab_call e1 prog state_1 dt with
    | .error e => .error e
    | .ok (e2, state_2) =>
      match add state state_2 with
      | .error e => .error e
      | .ok s => .ok (⟨m.stages, e2⟩, multiply (1/2) s)

/-- `SSPRungeKutta._step_3_stages` with the source's blend weights `0.75`,
`0.25` and `1/3`, `2/3`. -/
def step_3_stages (m : SSPMachine) (prog : Dict ℚ → ℚ → Dict ℚ)
    (state : Dict ℚ) (dt : ℚ) : Except Err (SSPMachine × Dict ℚ) :=
  match ab_call m.euler prog state dt with
  | .error e => .error e
  | .ok (e1, state_1) =>
    match ab_call e1 prog state_1 dt with
    | .error e => .error e
    | .ok (e2, state_1_5) =>
      match add (multiply (3/4) state) (multiply (1/4) state_1_5) with
      | .error e => .error e
      | .ok state_2 =>
        match ab_call e2 prog state_2 dt with
        | .error e => .error e
        | .ok (e3, state_2_5) =>
          match add (multiply (1/3) state) (multiply (2/3) state_2_5) with
          | .error e => .error e
          | .ok out => .ok (⟨m.stages, e3⟩, out)

/-- `SSPRungeKutta._call`: dispatch on the stage count (`__init__` has
already restricted it to 2 or 3; any other value cannot produce a state in
the source, modelled as an error). -/
def ssp_call (m : SSPMachine) (prog : Dict ℚ → ℚ → Dict ℚ)
    (state : Dict ℚ) (dt : ℚ) : Except Err (SSPMachine × Dict ℚ) :=
  if m.stages = 2 then step_2_stages m prog state dt
  else if m.stages = 3 then step_3_stages m prog state dt
  else .error (.runtimeError "stages must be one of 2 or 3")

/-! ## Dictionary and timestepper lemmas -/

/-- Key presence is definability of the lookup. -/
theorem hasKey_eq_isSome {α : Type} (d : Dict α) (k : String) :
    Dict.hasKey d k = (d.lookup k).isSome := by
  by_cases h : Dict.hasKey d k
  · rw [h, lookup_isSome_of_hasKey h]
  · rw [lookup_eq_none_of_not_hasKey h]
    simp only [Option.isSome_none]
    exact Bool.not_eq_true _ ▸ (by simpa using h)

/-- Assignment at one key does not change presence of another. -/
theorem hasKey_set_ne {α : Type} (d : Dict α) {k k' : String} (v : α)
    (h : k' ≠ k) : Dict.hasKey (d.set k v) k' = Dict.hasKey d k' := by
  rw [hasKey_eq_isSome, hasKey_eq_isSome, lookup_set_ne d v h]

/-- Assignment preserves distinctness of the keys. -/
theorem set_keys_nodup {α : Type} {d : Dict α} (k : String) (v : α)
    (h : (Dict.keys d).Nodup) : (Dict.keys (d.set k v)).Nodup := by
  unfold Dict.set
  by_cases hk : Dict.hasKey d k
  · rw [if_pos hk]
    have hkeys : Dict.keys (d.map
        (fun p => if p.1 == k then (k, v) else p)) = Dict.keys d := by
      unfold Dict.keys
      rw [List.map_map]
      refine List.map_congr_left ?_
      intro p _
      by_cases hp : p.1 = k
      · simp [Function.comp, hp]
      · simp [Function.comp, hp]
    rw [hkeys]
    exact h
  · rw [if_neg hk]
    unfold Dict.keys
    rw [List.map_append]
    refine List.Nodup.append h (by simp) ?_
    intro a ha hb
    simp only [List.map_cons, List.map_nil, List.mem_singleton] at hb
    subst hb
    exact hk (hasKey_iff.2 ha)

/-- `copy_untouched_quantities` never changes a binding already present. -/
theorem copy_untouched_lookup_of_hasKey :
    ∀ (old new : Dict ℚ) (k : String) (v : ℚ), new.lookup k = some v →
      (copy_untouched_quantities old new).lookup k = some v := by
  intro old
  induction old with
  | nil => intro new k v h; exact h
  | cons kv rest ih =>
    intro new k v h
    show (copy_untouched_quantities rest _).lookup k = some v
    by_cases hk : Dict.hasKey new kv.1
    · rw [if_pos hk]
      exact ih new k v h
    · rw [if_neg hk]
      have hne : kv.1 ≠ k := by
        intro he
        subst he
        rw [hasKey_eq_isSome, h] at hk
        exact hk rfl
      refine ih _ k v ?_
      rw [lookup_set_ne new kv.2 (Ne.symm hne)]
      exact h

/-- `copy_untouched_quantities` copies an untouched binding through. -/
theorem copy_untouched_lookup_of_fresh :
    ∀ (old new : Dict ℚ) (k : String) (v : ℚ),
      ¬ Dict.hasKey new k = true → old.lookup k = some v →
      (copy_untouched_quantities old new).lookup k = some v := by
  intro old
  induction old with
  | nil => intro new k v _ h; cases h
  | cons kv rest ih =>
    intro new k v hfresh h
    show (copy_untouched_quantities rest _).lookup k = some v
    by_cases he : kv.1 = k
    · subst he
      have hv : kv.2 = v := by
        have : Dict.lookup (kv :: rest) kv.1 = some kv.2 := by
          show List.lookup kv.1 (kv :: rest) = some kv.2
          obtain ⟨a, b⟩ := kv
          simp [List.lookup_cons]
        rw [this] at h
        exact Option.some.inj h
      subst hv
      rw [if_neg hfresh]
      exact copy_untouched_lookup_of_hasKey rest _ kv.1 kv.2
        (lookup_set_self new kv.1 kv.2)
    · have hrest : Dict.lookup rest k = some v := by
        show List.lookup k rest = some v
        have : Dict.lookup (kv :: rest) k = some v := h
        unfold Dict.lookup at this
        obtain ⟨a, b⟩ := kv
        rw [List.lookup_cons] at this
        have hne : (k == a) = false := by
          simp only [beq_eq_false_iff_ne, ne_eq]
          exact fun hh => he (by simp [hh])
        rw [hne] at this
        exact this
      by_cases hk : Dict.hasKey new kv.1
      · rw [if_pos hk]
        exact ih new k v hfresh hrest
      · rw [if_neg hk]
        refine ih _ k v ?_ hrest
        rw [hasKey_set_ne new kv.2 (fun hh => he hh.symm)]
        exact hfresh

/-- `copy_untouched_quantities` preserves distinctness of the keys. -/
theorem copy_untouched_keys_nodup :
    ∀ (old new : Dict ℚ), (Dict.keys new).Nodup →
      (Dict.keys (copy_untouched_quantities old new)).Nodup := by
  intro old
  induction old with
  | nil => intro new h; exact h
  | cons kv rest ih =>
    intro new h
    show (Dict.keys (copy_untouched_quantities rest _)).Nodup
    by_cases hk : Dict.hasKey new kv.1
    · rw [if_pos hk]
      exact ih new h
    · rw [if_neg hk]
      exact ih _ (set_keys_nodup kv.1 kv.2 h)

/-- A `mapM` whose per-entry function keeps the key produces a dictionary
with the same key sequence. -/
theorem mapM_keys_eq {f : String × ℚ → Except Err (String × ℚ)}
    (hf : ∀ kv r, f kv = .ok r → r.1 = kv.1) :
    ∀ (l ns : List (String × ℚ)), l.mapM f = .ok ns →
      ns.map Prod.fst = l.map Prod.fst := by
  intro l
  induction l with
  | nil =>
    intro ns h
    rw [List.mapM_nil] at h
    cases h
    rfl
  | cons a t ih =>
    intro ns h
    rw [List.mapM_cons] at h
    cases hfa : f a with
    | error e =>
      simp only [hfa, bind, Except.bind] at h
      cases h
    | ok r =>
      simp only [hfa, bind, Except.bind] at h
      cases hmt : t.mapM f with
      | error e =>
        simp only [hmt, bind, Except.bind] at h
        cases h
      | ok rs =>
        simp only [hmt, bind, Except.bind, pure, Except.pure] at h
        cases h
        simp only [List.map_cons]
        rw [hf a r hfa, ih rs hmt]

/-- Equal key sequences give equal key-presence tests. -/
theorem keys_eq_hasKey {α β : Type} {a : Dict α} {b : Dict β}
    (h : Dict.keys a = Dict.keys b) (k : String) :
    Dict.hasKey a k = Dict.hasKey b k := by
  by_cases hk : Dict.hasKey a k
  · rw [hk, (hasKey_iff.2 (h ▸ hasKey_iff.1 hk) : Dict.hasKey b k = true)]
  · have hk' : ¬ Dict.hasKey b k = true := by
      intro hb
      exact hk (hasKey_iff.2 (h ▸ hasKey_iff.1 hb))
    rw [Bool.not_eq_true] at hk hk'
    rw [hk, hk']

/-- `step_forward_euler` produces exactly the tendency keys. -/
theorem step_forward_euler_keys (state tend : Dict ℚ) (dt : ℚ)
    (ns : Dict ℚ) (h : step_forward_euler state tend dt = .ok ns) :
    Dict.keys ns = Dict.keys tend := by
  refine mapM_keys_eq ?_ tend ns h
  intro kv r hr
  cases hl : state.lookup kv.1 with
  | none =>
    simp only [hl] at hr
    cases hr
  | some v =>
    simp only [hl] at hr
    cases hr
    rfl

/-- `second_bashforth` produces exactly the keys of the oldest tendency
dictionary. -/
theorem second_bashforth_keys (state : Dict ℚ) (tl : List (Dict ℚ))
    (dt : ℚ) (ns : Dict ℚ) (h : second_bashforth state tl dt = .ok ns) :
    Dict.keys ns = Dict.keys (tl.headD []) := by
  refine mapM_keys_eq ?_ (tl.headD []) ns h
  intro kv r hr
  cases h1 : state.lookup kv.1 with
  | none =>
      simp only [h1] at hr
      cases hr
  | some s =>
    cases h2 : (nthFromEnd tl 1).lookup kv.1 with
    | none =>
      simp only [h1, h2] at hr
      cases hr
    | some t1 =>
      cases h3 : (nthFromEnd tl 2).lookup kv.1 with
      | none =>
      simp only [h1, h2, h3] at hr
      cases hr
      | some t2 =>
        simp only [h1, h2, h3] at hr
        cases hr
        rfl

/-- `third_bashforth` produces exactly the keys of the oldest tendency
dictionary. -/
theorem third_bashforth_keys (state : Dict ℚ) (tl : List (Dict ℚ))
    (dt : ℚ) (ns : Dict ℚ) (h : third_bashforth state tl dt = .ok ns) :
    Dict.keys ns = Dict.keys (tl.headD []) := by
  refine mapM_keys_eq ?_ (tl.headD []) ns h
  intro kv r hr
  cases h1 : state.lookup kv.1 with
  | none =>
      simp only [h1] at hr
      cases hr
  | some s =>
    cases h2 : (nthFromEnd tl 1).lookup kv.1 with
    | none =>
      simp only [h1, h2] at hr
      cases hr
    | some t1 =>
      cases h3 : (nthFromEnd tl 2).lookup kv.1 with
      | none =>
      simp only [h1, h2, h3] at hr
      cases hr
      | some t2 =>
        cases h4 : (nthFromEnd tl 3).lookup kv.1 with
        | none =>
      simp only [h1, h2, h3, h4] at hr
      cases hr
        | some t3 =>
          simp only [h1, h2, h3, h4] at hr
          cases hr
          rfl

/-- `fourth_bashforth` produces exactly the keys of the oldest tendency
dictionary. -/
theorem fourth_bashforth_keys (state : Dict ℚ) (tl : List (Dict ℚ))
    (dt : ℚ) (ns : Dict ℚ) (h : fourth_bashforth state tl dt = .ok ns) :
    Dict.keys ns = Dict.keys (tl.headD []) := by
  refine mapM_keys_eq ?_ (tl.headD []) ns h
  intro kv r hr
  cases h1 : state.lookup kv.1 with
  | none =>
      simp only [h1] at hr
      cases hr
  | some s =>
    cases h2 : (nthFromEnd tl 1).lookup kv.1 with
    | none =>
      simp only [h1, h2] at hr
      cases hr
    | some t1 =>
      cases h3 : (nthFromEnd tl 2).lookup kv.1 with
      | none =>
      simp only [h1, h2, h3] at hr
      cases hr
      | some t2 =>
        cases h4 : (nthFromEnd tl 3).lookup kv.1 with
        | none =>
      simp only [h1, h2, h3, h4] at hr
      cases hr
        | some t3 =>
          cases h5 : (nthFromEnd tl 4).lookup kv.1 with
          | none =>
      simp only [h1, h2, h3, h4, h5] at hr
      cases hr
          | some t4 =>
            simp only [h1, h2, h3, h4, h5] at hr
            cases hr
            rfl

/-- `tl[-i]` is an element of `tl` when the index is in bounds. -/
theorem nthFromEnd_mem (tl : List (Dict ℚ)) (i : Nat) (h1 : 1 ≤ i)
    (h2 : i ≤ tl.length) : nthFromEnd tl i ∈ tl := by
  unfold nthFromEnd
  have hlt : tl.length - i < tl.length := by omega
  rw [List.getD_eq_getElem tl [] hlt]
  exact List.getElem_mem hlt

/-- The head of a non-empty list is a member. -/
theorem headD_mem {α : Type} (l : List α) (d : α) (h : l ≠ []) :
    l.headD d ∈ l := by
  cases l with
  | nil => exact absurd rfl h
  | cons a t => exact List.mem_cons_self a t

/-- A successful `perform_step` reads its keys off one of the stored
tendency dictionaries. -/
theorem perform_step_source (m : ABMachine) (state : Dict ℚ) (dt : ℚ)
    (ns : Dict ℚ) (h : perform_step m state dt = .ok ns) :
    ∃ td ∈ m.tendencies_list, Dict.keys ns = Dict.keys td := by
  unfold perform_step at h
  by_cases h1 : min m.order m.tendencies_list.length = 1
  · rw [if_pos h1] at h
    refine ⟨nthFromEnd m.tendencies_list 1, ?_,
      step_forward_euler_keys _ _ _ _ h⟩
    exact nthFromEnd_mem _ 1 le_rfl (by omega)
  · rw [if_neg h1] at h
    by_cases h2 : min m.order m.tendencies_list.length = 2
    · rw [if_pos h2] at h
      have hne : m.tendencies_list ≠ [] := by
        intro he
        rw [he] at h2
        simp at h2
      exact ⟨m.tendencies_list.headD [], headD_mem _ _ hne,
        second_bashforth_keys _ _ _ _ h⟩
    · rw [if_neg h2] at h
      by_cases h3 : min m.order m.tendencies_list.length = 3
      · rw [if_pos h3] at h
        have hne : m.tendencies_list ≠ [] := by
          intro he
          rw [he] at h3
          simp at h3
        exact ⟨m.tendencies_list.headD [], headD_mem _ _ hne,
          third_bashforth_keys _ _ _ _ h⟩
      · rw [if_neg h3] at h
        by_cases h4 : min m.order m.tendencies_list.length = 4
        · rw [if_pos h4] at h
          have hne : m.tendencies_list ≠ [] := by
            intro he
            rw [he] at h4
            simp at h4
          exact ⟨m.tendencies_list.headD [], headD_mem _ _ hne,
            fourth_bashforth_keys _ _ _ _ h⟩
        · rw [if_neg h4] at h
          cases h

/-- A successful timestep check keeps the order and tendency list. -/
theorem ab_ensure_ok_fields (m m1 : ABMachine) (dt : ℚ)
    (h : ab_ensure_constant_timestep m dt = .ok m1) :
    m1.order = m.order ∧ m1.tendencies_list = m.tendencies_list := by
  unfold ab_ensure_constant_timestep at h
  cases hts : m.timestep with
  | none =>
    simp only [hts] at h
    cases h
    exact ⟨rfl, rfl⟩
  | some t =>
    simp only [hts] at h
    by_cases he : t = dt
    · rw [if_pos he] at h
      cases h
      exact ⟨rfl, rfl⟩
    · rw [if_neg he] at h
      cases h

/-- A successful Adams-Bashforth call carries an untouched binding of the
input state through to the new state unchanged. -/
theorem ab_call_untouched (m : ABMachine) (prog : Dict ℚ → ℚ → Dict ℚ)
    (state : Dict ℚ) (dt : ℚ) (m' : ABMachine) (ns : Dict ℚ)
    (k : String) (v : ℚ)
    (h : ab_call m prog state dt = .ok (m', ns))
    (hv : state.lookup k = some v)
    (hpk : ¬ Dict.hasKey (prog state dt) k = true)
    (htl : ∀ td ∈ m.tendencies_list, ¬ Dict.hasKey td k = true) :
    ns.lookup k = some v := by
  unfold ab_call at h
  cases hens : ab_ensure_constant_timestep m dt with
  | error e =>
    rw [hens] at h
    cases h
  | ok m1 =>
    rw [hens] at h
    dsimp only at h
    obtain ⟨-, hlist⟩ := ab_ensure_ok_fields m m1 dt hens
    cases hps : perform_step
        ⟨m1.order, m1.timestep, m1.tendencies_list ++
          [convert_tendencies_units_for_state (prog state dt) state]⟩
        state dt with
    | error e =>
      rw [hps] at h
      cases h
    | ok ns0 =>
      rw [hps] at h
      dsimp only at h
      have hns : ns = copy_untouched_quantities state ns0 :=
        (congrArg Prod.snd (Except.ok.inj h)).symm
      obtain ⟨td, htd, hkeys⟩ := perform_step_source _ state dt ns0 hps
      have htdk : ¬ Dict.hasKey td k = true := by
        dsimp only at htd
        rw [hlist] at htd
        rcases List.mem_append.1 htd with hmem | hmem
        · exact htl td hmem
        · rw [List.mem_singleton] at hmem
          subst hmem
          exact hpk
      have hfresh : ¬ Dict.hasKey ns0 k = true := by
        rw [keys_eq_hasKey hkeys k]
        exact htdk
      rw [hns]
      exact copy_untouched_lookup_of_fresh state ns0 k v hfresh hv

/-- Every tendency dictionary stored after an Adams-Bashforth call was
either already stored or is the tendencies of this call. -/
theorem ab_call_tendencies_sub (m : ABMachine)
    (prog : Dict ℚ → ℚ → Dict ℚ) (state : Dict ℚ) (dt : ℚ)
    (m' : ABMachine) (ns : Dict ℚ)
    (h : ab_call m prog state dt = .ok (m', ns)) :
    ∀ td ∈ m'.tendencies_list,
      td ∈ m.tendencies_list ∨ td = prog state dt := by
  unfold ab_call at h
  cases hens : ab_ensure_constant_timestep m dt with
  | error e =>
    rw [hens] at h
    cases h
  | ok m1 =>
    rw [hens] at h
    dsimp only at h
    obtain ⟨-, hlist⟩ := ab_ensure_ok_fields m m1 dt hens
    cases hps : perform_step
        ⟨m1.order, m1.timestep, m1.tendencies_list ++
          [convert_tendencies_units_for_state (prog state dt) state]⟩
        state dt with
    | error e =>
      rw [hps] at h
      cases h
    | ok ns0 =>
      rw [hps] at h
      dsimp only at h
      have hm' := congrArg Prod.fst (Except.ok.inj h)
      dsimp only at hm'
      intro td htd
      rw [← hm'] at htd
      have hmem : td ∈ m1.tendencies_list ++
          [convert_tendencies_units_for_state (prog state dt) state] := by
        by_cases hc : (m1.tendencies_list ++
            [convert_tendencies_units_for_state (prog state dt)
              state]).length = m1.order
        · rw [if_pos hc] at htd
          exact List.mem_of_mem_tail htd
        · rw [if_neg hc] at htd
          exact htd
      rw [hlist] at hmem
      rcases List.mem_append.1 hmem with hmem2 | hmem2
      · exact Or.inl hmem2
      · rw [List.mem_singleton] at hmem2
        exact Or.inr hmem2

/-- A successful Adams-Bashforth call returns a state with distinct keys
whenever every involved tendency dictionary has distinct keys. -/
theorem ab_call_keys_nodup (m : ABMachine) (prog : Dict ℚ → ℚ → Dict ℚ)
    (state : Dict ℚ) (dt : ℚ) (m' : ABMachine) (ns : Dict ℚ)
    (h : ab_call m prog state dt = .ok (m', ns))
    (hs : ∀ td ∈ m.tendencies_list, (Dict.keys td).Nodup)
    (hp : (Dict.keys (prog state dt)).Nodup) :
    (Dict.keys ns).Nodup := by
  unfold ab_call at h
  cases hens : ab_ensure_constant_timestep m dt with
  | error e =>
    rw [hens] at h
    cases h
  | ok m1 =>
    rw [hens] at h
    dsimp only at h
    obtain ⟨-, hlist⟩ := ab_ensure_ok_fields m m1 dt hens
    cases hps : perform_step
        ⟨m1.order, m1.timestep, m1.tendencies_list ++
          [convert_tendencies_units_for_state (prog state dt) state]⟩
        state dt with
    | error e =>
      rw [hps] at h
      cases h
    | ok ns0 =>
      rw [hps] at h
      dsimp only at h
      have hns : ns = copy_untouched_quantities state ns0 :=
        (congrArg Prod.snd (Except.ok.inj h)).symm
      obtain ⟨td, htd, hkeys⟩ := perform_step_source _ state dt ns0 hps
      have htdnd : (Dict.keys td).Nodup := by
        dsimp only at htd
        rw [hlist] at htd
        rcases List.mem_append.1 htd with hmem | hmem
        · exact hs td hmem
        · rw [List.mem_singleton] at hmem
          subst hmem
          exact hp
      rw [hns]
      exact copy_untouched_keys_nodup state ns0 (hkeys ▸ htdnd)

/-- The leapfrog loop does not touch the bindings of keys outside the
tendency dictionary, in either returned state. -/
theorem lfLoop_untouched (old : Dict ℚ) (dt a al : ℚ) (k : String) :
    ∀ (tl : List (String × ℚ)) (state acc : Dict ℚ)
      (r : Dict ℚ × Dict ℚ),
      lfLoop old dt a al tl state acc = .ok r →
      (∀ kv ∈ tl, kv.1 ≠ k) →
      r.1.lookup k = state.lookup k ∧
      Dict.hasKey r.2 k = Dict.hasKey acc k := by
  intro tl
  induction tl with
  | nil =>
    intro state acc r h _
    cases h
    exact ⟨rfl, rfl⟩
  | cons hd rest ih =>
    intro state acc r h hne
    obtain ⟨k', t⟩ := hd
    have hk' : k' ≠ k := hne (k', t) (List.mem_cons_self _ _)
    simp only [lfLoop] at h
    cases h1 : old.lookup k' with
    | none =>
      rw [h1] at h
      cases h
    | some ov =>
      rw [h1] at h
      cases h2 : state.lookup k' with
      | none =>
        rw [h2] at h
        cases h
      | some sv =>
        rw [h2] at h
        dsimp only at h
        obtain ⟨hst, hns⟩ := ih _ _ r h
          (fun kv hkv => hne kv (List.mem_cons_of_mem _ hkv))
        refine ⟨?_, ?_⟩
        · rw [hst, lookup_set_ne state _ (Ne.symm hk')]
        · rw [hns, hasKey_set_ne acc _ (Ne.symm hk')]

/-- A successful leapfrog call carries an untouched binding of the input
state through to the new state unchanged. -/
theorem lf_call_untouched (m : LFMachine) (prog : Dict ℚ → ℚ → Dict ℚ)
    (state : Dict ℚ) (dt : ℚ) (m' : LFMachine) (ns : Dict ℚ)
    (k : String) (v : ℚ)
    (h : lf_call m prog state dt = .ok (m', ns))
    (hv : state.lookup k = some v)
    (hpk : ¬ Dict.hasKey (prog state dt) k = true) :
    ns.lookup k = some v := by
  unfold lf_call at h
  cases hens : lf_ensure_constant_timestep m dt with
  | error e =>
    rw [hens] at h
    cases h
  | ok m1 =>
    rw [hens] at h
    dsimp only at h
    cases hold : m1.old_state with
    | none =>
      rw [hold] at h
      dsimp only at h
      cases hsf : step_forward_euler state
          (convert_tendencies_units_for_state (prog state dt) state)
          dt with
      | error e =>
        rw [hsf] at h
        cases h
      | ok ns0 =>
        rw [hsf] at h
        dsimp only at h
        have hns : ns = copy_untouched_quantities state ns0 :=
          (congrArg Prod.snd (Except.ok.inj h)).symm
        have hkeys := step_forward_euler_keys _ _ _ _ hsf
        have hfresh : ¬ Dict.hasKey ns0 k = true := by
          rw [keys_eq_hasKey hkeys k]
          exact hpk
        rw [hns]
        exact copy_untouched_lookup_of_fresh state ns0 k v hfresh hv
    | some old =>
      rw [hold] at h
      dsimp only at h
      cases hsl : step_leapfrog old state
          (convert_tendencies_units_for_state (prog state dt) state)
          dt m1.asselin_strength m1.alpha with
      | error e =>
        rw [hsl] at h
        cases h
      | ok pr =>
        obtain ⟨st2, ns0⟩ := pr
        rw [hsl] at h
        dsimp only at h
        have hns : ns = copy_untouched_quantities st2 ns0 :=
          (congrArg Prod.snd (Except.ok.inj h)).symm
        have hne : ∀ kv ∈ convert_tendencies_units_for_state
            (prog state dt) state, kv.1 ≠ k := by
          intro kv hkv he
          refine hpk ?_
          unfold Dict.hasKey
          rw [List.any_eq_true]
          exact ⟨kv, hkv, by simp [he]⟩
        obtain ⟨hst, hhk⟩ := lfLoop_untouched old dt m1.asselin_strength
          m1.alpha k _ state [] (st2, ns0) hsl hne
        have hfresh : ¬ Dict.hasKey ns0 k = true := by
          show ¬ Dict.hasKey (st2, ns0).2 k = true
          rw [hhk]
          simp [Dict.hasKey]
        have hv2 : st2.lookup k = some v := by
          show Dict.lookup (st2, ns0).1 k = some v
          rw [hst]
          exact hv
        rw [hns]
        exact copy_untouched_lookup_of_fresh st2 ns0 k v hfresh hv2

/-- The `add` loop does not touch keys outside the iterated entries. -/
theorem addLoop_preserve (s2 : Dict ℚ) (k : String) :
    ∀ (entries : List (String × ℚ)) (out r : Dict ℚ),
      addLoop s2 entries out = .ok r →
      (∀ kv ∈ entries, kv.1 ≠ k) → r.lookup k = out.lookup k := by
  intro entries
  induction entries with
  | nil =>
    intro out r h _
    cases h
    rfl
  | cons hd rest ih =>
    intro out r h hne
    obtain ⟨k', v'⟩ := hd
    have hk' : k' ≠ k := hne (k', v') (List.mem_cons_self _ _)
    simp only [addLoop] at h
    by_cases ht : k' = "time"
    · rw [if_pos ht] at h
      exact ih out r h (fun kv hkv => hne kv (List.mem_cons_of_mem _ hkv))
    · rw [if_neg ht] at h
      cases h2 : s2.lookup k' with
      | none =>
        rw [h2] at h
        cases h
      | some v2 =>
        rw [h2] at h
        dsimp only at h
        rw [ih _ r h (fun kv hkv => hne kv (List.mem_cons_of_mem _ hkv))]
        exact lookup_set_ne out _ (Ne.symm hk')

/-- The `add` loop preserves distinctness of the accumulated keys. -/
theorem addLoop_keys_nodup (s2 : Dict ℚ) :
    ∀ (entries : List (String × ℚ)) (out r : Dict ℚ),
      addLoop s2 entries out = .ok r → (Dict.keys out).Nodup →
      (Dict.keys r).Nodup := by
  intro entries
  induction entries with
  | nil =>
    intro out r h hnd
    cases h
    exact hnd
  | cons hd rest ih =>
    intro out r h hnd
    obtain ⟨k', v'⟩ := hd
    simp only [addLoop] at h
    by_cases ht : k' = "time"
    · rw [if_pos ht] at h
      exact ih out r h hnd
    · rw [if_neg ht] at h
      cases h2 : s2.lookup k' with
      | none =>
        rw [h2] at h
        cases h
      | some v2 =>
        rw [h2] at h
        dsimp only at h
        exact ih _ r h (set_keys_nodup k' _ hnd)

/-- The keyed sum: a non-`"time"` key present once in the iterated entries
ends up bound to the sum of the two values. -/
theorem addLoop_lookup (s2 : Dict ℚ) (k : String) (hk : k ≠ "time") :
    ∀ (entries : List (String × ℚ)) (out r : Dict ℚ) (a b : ℚ),
      addLoop s2 entries out = .ok r → (entries.map Prod.fst).Nodup →
      List.lookup k entries = some a → s2.lookup k = some b →
      r.lookup k = some (a + b) := by
  intro entries
  induction entries with
  | nil =>
    intro out r a b h _ ha _
    cases ha
  | cons hd rest ih =>
    intro out r a b h hnd ha hb
    obtain ⟨k', v'⟩ := hd
    by_cases he : k' = k
    · subst he
      have hva : v' = a := by
        rw [List.lookup_cons, beq_self_eq_true] at ha
        exact Option.some.inj ha
      subst hva
      simp only [addLoop] at h
      rw [if_neg hk, hb] at h
      dsimp only at h
      have hrest : ∀ kv ∈ rest, kv.1 ≠ k' := by
        intro kv hkv he2
        have : k' ∈ rest.map Prod.fst := List.mem_map.2 ⟨kv, hkv, he2⟩
        exact (List.nodup_cons.1 hnd).1 this
      rw [addLoop_preserve s2 k' rest _ r h hrest]
      exact lookup_set_self out k' _
    · have ha' : List.lookup k rest = some a := by
        rw [List.lookup_cons] at ha
        have hbeq : (k == k') = false := by
          simp only [beq_eq_false_iff_ne, ne_eq]
          exact fun hh => he hh.symm
        rw [hbeq] at ha
        exact ha
      simp only [addLoop] at h
      by_cases ht : k' = "time"
      · rw [if_pos ht] at h
        exact ih out r a b h (List.nodup_cons.1 hnd).2 ha' hb
      · rw [if_neg ht] at h
        cases h2 : s2.lookup k' with
        | none =>
          rw [h2] at h
          cases h
        | some v2 =>
          rw [h2] at h
          dsimp only at h
          exact ih _ r a b h (List.nodup_cons.1 hnd).2 ha' hb

/-- `state.add` on a non-`"time"` key present in both states. -/
theorem add_lookup (s1 s2 r : Dict ℚ) (k : String) (a b : ℚ)
    (h : add s1 s2 = .ok r) (hk : k ≠ "time")
    (hnd : (Dict.keys s1).Nodup)
    (ha : s1.lookup k = some a) (hb : s2.lookup k = some b) :
    r.lookup k = some (a + b) :=
  addLoop_lookup s2 k hk s1 _ r a b h hnd ha hb

/-- `state.add` returns a dictionary with distinct keys. -/
theorem add_keys_nodup (s1 s2 r : Dict ℚ) (h : add s1 s2 = .ok r) :
    (Dict.keys r).Nodup := by
  refine addLoop_keys_nodup s2 s1 _ r h ?_
  cases s1.lookup "time" with
  | none => simp [Dict.keys]
  | some t => simp [Dict.keys]

/-- The `multiply` loop does not touch keys outside the iterated
entries. -/
theorem mulLoop_preserve (c : ℚ) (k : String) :
    ∀ (entries : List (String × ℚ)) (out : Dict ℚ),
      (∀ kv ∈ entries, kv.1 ≠ k) →
      (mulLoop c entries out).lookup k = out.lookup k := by
  intro entries
  induction entries with
  | nil => intro out _; rfl
  | cons hd rest ih =>
    intro out hne
    obtain ⟨k', v'⟩ := hd
    have hk' : k' ≠ k := hne (k', v') (List.mem_cons_self _ _)
    simp only [mulLoop]
    by_cases ht : k' = "time"
    · rw [if_pos ht]
      exact ih out (fun kv hkv => hne kv (List.mem_cons_of_mem _ hkv))
    · rw [if_neg ht]
      rw [ih _ (fun kv hkv => hne kv (List.mem_cons_of_mem _ hkv))]
      exact lookup_set_ne out _ (Ne.symm hk')

/-- The `multiply` loop preserves distinctness of the accumulated keys. -/
theorem mulLoop_keys_nodup (c : ℚ) :
    ∀ (entries : List (String × ℚ)) (out : Dict ℚ),
      (Dict.keys out).Nodup →
      (Dict.keys (mulLoop c entries out)).Nodup := by
  intro entries
  induction entries with
  | nil => intro out h; exact h
  | cons hd rest ih =>
    intro out h
    obtain ⟨k', v'⟩ := hd
    simp only [mulLoop]
    by_cases ht : k' = "time"
    · rw [if_pos ht]
      exact ih out h
    · rw [if_neg ht]
      exact ih _ (set_keys_nodup k' _ h)

/-- The scaled value of a non-`"time"` key present once in the iterated
entries. -/
theorem mulLoop_lookup (c : ℚ) (k : String) (hk : k ≠ "time") :
    ∀ (entries : List (String × ℚ)) (out : Dict ℚ) (a : ℚ),
      (entries.map Prod.fst).Nodup → List.lookup k entries = some a →
      (mulLoop c entries out).lookup k = some (c * a) := by
  intro entries
  induction entries with
  | nil =>
    intro out a _ ha
    cases ha
  | cons hd rest ih =>
    intro out a hnd ha
    obtain ⟨k', v'⟩ := hd
    by_cases he : k' = k
    · subst he
      have hva : v' = a := by
        rw [List.lookup_cons, beq_self_eq_true] at ha
        exact Option.some.inj ha
      subst hva
      simp only [mulLoop]
      rw [if_neg hk]
      have hrest : ∀ kv ∈ rest, kv.1 ≠ k' := by
        intro kv hkv he2
        have : k' ∈ rest.map Prod.fst := List.mem_map.2 ⟨kv, hkv, he2⟩
        exact (List.nodup_cons.1 hnd).1 this
      rw [mulLoop_preserve c k' rest _ hrest]
      exact lookup_set_self out k' _
    · have ha' : List.lookup k rest = some a := by
        rw [List.lookup_cons] at ha
        have hbeq : (k == k') = false := by
          simp only [beq_eq_false_iff_ne, ne_eq]
          exact fun hh => he hh.symm
        rw [hbeq] at ha
        exact ha
      simp only [mulLoop]
      by_cases ht : k' = "time"
      · rw [if_pos ht]
        exact ih out a (List.nodup_cons.1 hnd).2 ha'
      · rw [if_neg ht]
        exact ih _ a (List.nodup_cons.1 hnd).2 ha'

/-- `state.multiply` on a non-`"time"` key. -/
theorem multiply_lookup (c : ℚ) (s : Dict ℚ) (k : String) (a : ℚ)
    (hk : k ≠ "time") (hnd : (Dict.keys s).Nodup)
    (ha : s.lookup k = some a) :
    (multiply c s).lookup k = some (c * a) :=
  mulLoop_lookup c k hk s _ a hnd ha

/-- `state.multiply` returns a dictionary with distinct keys. -/
theorem multiply_keys_nodup (c : ℚ) (s : Dict ℚ) :
    (Dict.keys (multiply c s)).Nodup := by
  refine mulLoop_keys_nodup c s _ ?_
  cases s.lookup "time" with
  | none => simp [Dict.keys]
  | some t => simp [Dict.keys]

/-- A recorded Adams-Bashforth timestep rejects any different one. -/
theorem ab_ensure_mismatch (m : ABMachine) (t dt : ℚ)
    (ht : m.timestep = some t) (hne : dt ≠ t) :
    ab_ensure_constant_timestep m dt = .error (.valueError
      "timestep must be constant for Adams-Bashforth time stepping") := by
  unfold ab_ensure_constant_timestep
  rw [ht]
  dsimp only
  rw [if_neg (fun hh => hne hh.symm)]

/-- An Adams-Bashforth call with a changed timestep fails. -/
theorem ab_call_mismatch (m : ABMachine) (prog : Dict ℚ → ℚ → Dict ℚ)
    (state : Dict ℚ) (t dt : ℚ)
    (ht : m.timestep = some t) (hne : dt ≠ t) :
    ab_call m prog state dt = .error (.valueError
      "timestep must be constant for Adams-Bashforth time stepping") := by
  unfold ab_call
  rw [ab_ensure_mismatch m t dt ht hne]

/-- A recorded leapfrog timestep rejects any different one. -/
theorem lf_ensure_mismatch (m : LFMachine) (t dt : ℚ)
    (ht : m.timestep = some t) (hne : dt ≠ t) :
    lf_ensure_constant_timestep m dt = .error (.valueError
      "timestep must be constant for Leapfrog time stepping") := by
  unfold lf_ensure_constant_timestep
  rw [ht]
  dsimp only
  rw [if_neg (fun hh => hne hh.symm)]

/-- A leapfrog call with a changed timestep fails. -/
theorem lf_call_mismatch (m : LFMachine) (prog : Dict ℚ → ℚ → Dict ℚ)
    (state : Dict ℚ) (t dt : ℚ)
    (ht : m.timestep = some t) (hne : dt ≠ t) :
    lf_call m prog state dt = .error (.valueError
      "timestep must be constant for Leapfrog time stepping") := by
  unfold lf_call
  rw [lf_ensure_mismatch m t dt ht hne]

/-- An SSP-Runge-Kutta call with a changed timestep fails inside its
internal Euler stepper. -/
theorem ssp_call_mismatch (m : SSPMachine) (prog : Dict ℚ → ℚ → Dict ℚ)
    (state : Dict ℚ) (t dt : ℚ)
    (hst : m.stages = 2 ∨ m.stages = 3)
    (ht : m.euler.timestep = some t) (hne : dt ≠ t) :
    ssp_call m prog state dt = .error (.valueError
      "timestep must be constant for Adams-Bashforth time stepping") := by
  unfold ssp_call
  rcases hst with h2 | h3
  · rw [if_pos h2]
    unfold step_2_stages
    rw [ab_call_mismatch m.euler prog state t dt ht hne]
  · by_cases h2 : m.stages = 2
    · rw [if_pos h2]
      unfold step_2_stages
      rw [ab_call_mismatch m.euler prog state t dt ht hne]
    · rw [if_neg h2, if_pos h3]
      unfold step_3_stages
      rw [ab_call_mismatch m.euler prog state t dt ht hne]

/-- A successful SSP-Runge-Kutta call carries an untouched binding of the
input state through to the new state unchanged (the convex blend weights
sum to one). -/
theorem ssp_call_untouched (m : SSPMachine) (prog : Dict ℚ → ℚ → Dict ℚ)
    (state : Dict ℚ) (dt : ℚ) (m' : SSPMachine) (ns : Dict ℚ)
    (k : String) (v : ℚ)
    (h : ssp_call m prog state dt = .ok (m', ns))
    (hv : state.lookup k = some v)
    (hk : k ≠ "time")
    (hstate : (Dict.keys state).Nodup)
    (hpk : ∀ s t, ¬ Dict.hasKey (prog s t) k = true)
    (hpnd : ∀ s t, (Dict.keys (prog s t)).Nodup)
    (htl : ∀ td ∈ m.euler.tendencies_list,
      ¬ Dict.hasKey td k = true ∧ (Dict.keys td).Nodup) :
    ns.lookup k = some v := by
  unfold ssp_call at h
  by_cases hs2 : m.stages = 2
  · rw [if_pos hs2] at h
    unfold step_2_stages at h
    cases hc1 : ab_call m.euler prog state dt with
    | error e =>
      rw [hc1] at h
      cases h
    | ok pr1 =>
      obtain ⟨e1, state_1⟩ := pr1
      rw [hc1] at h
      dsimp only at h
      have hs1 : state_1.lookup k = some v :=
        ab_call_untouched _ prog state dt _ _ k v hc1 hv (hpk state dt)
          (fun td htd => (htl td htd).1)
      have he1sub := ab_call_tendencies_sub _ prog state dt _ _ hc1
      have he1tl : ∀ td ∈ e1.tendencies_list,
          ¬ Dict.hasKey td k = true := by
        intro td htd
        rcases he1sub td htd with hmem | he
        · exact (htl td hmem).1
        · rw [he]
          exact hpk state dt
      cases hc2 : ab_call e1 prog state_1 dt with
      | error e =>
        rw [hc2] at h
        cases h
      | ok pr2 =>
        obtain ⟨e2, state_2⟩ := pr2
        rw [hc2] at h
        dsimp only at h
        have hs2v : state_2.lookup k = some v :=
          ab_call_untouched _ prog state_1 dt _ _ k v hc2 hs1
            (hpk state_1 dt) he1tl
        cases hadd : add state state_2 with
        | error e =>
          rw [hadd] at h
          cases h
        | ok s =>
          rw [hadd] at h
          dsimp only at h
          have hns : ns = multiply (1/2) s :=
            (congrArg Prod.snd (Except.ok.inj h)).symm
          have hsl : s.lookup k = some (v + v) :=
            add_lookup state state_2 s k v v hadd hk hstate hv hs2v
          have hsnd : (Dict.keys s).Nodup :=
            add_keys_nodup state state_2 s hadd
          rw [hns, multiply_lookup (1/2) s k (v + v) hk hsnd hsl]
          exact congrArg some (by ring)
  · rw [if_neg hs2] at h
    by_cases hs3 : m.stages = 3
    · rw [if_pos hs3] at h
      unfold step_3_stages at h
      cases hc1 : ab_call m.euler prog state dt with
      | error e =>
        rw [hc1] at h
        cases h
      | ok pr1 =>
        obtain ⟨e1, state_1⟩ := pr1
        rw [hc1] at h
        dsimp only at h
        have hs1 : state_1.lookup k = some v :=
          ab_call_untouched _ prog state dt _ _ k v hc1 hv (hpk state dt)
            (fun td htd => (htl td htd).1)
        have he1sub := ab_call_tendencies_sub _ prog state dt _ _ hc1
        have he1tl : ∀ td ∈ e1.tendencies_list,
            ¬ Dict.hasKey td k = true ∧ (Dict.keys td).Nodup := by
          intro td htd
          rcases he1sub td htd with hmem | he
          · exact htl td hmem
          · rw [he]
            exact ⟨hpk state dt, hpnd state dt⟩
        cases hc2 : ab_call e1 prog state_1 dt with
        | error e =>
          rw [hc2] at h
          cases h
        | ok pr2 =>
          obtain ⟨e2, state_1_5⟩ := pr2
          rw [hc2] at h
          dsimp only at h
          have hs15 : state_1_5.lookup k = some v :=
            ab_call_untouched _ prog state_1 dt _ _ k v hc2 hs1
              (hpk state_1 dt) (fun td htd => (he1tl td htd).1)
          have hs15nd : (Dict.keys state_1_5).Nodup :=
            ab_call_keys_nodup _ prog state_1 dt _ _ hc2
              (fun td htd => (he1tl td htd).2) (hpnd state_1 dt)
          have he2sub := ab_call_tendencies_sub _ prog state_1 dt _ _ hc2
          have he2tl : ∀ td ∈ e2.tendencies_list,
              ¬ Dict.hasKey td k = true ∧ (Dict.keys td).Nodup := by
            intro td htd
            rcases he2sub td htd with hmem | he
            · exact he1tl td hmem
            · rw [he]
              exact ⟨hpk state_1 dt, hpnd state_1 dt⟩
          cases hadd1 : add (multiply (3/4) state)
              (multiply (1/4) state_1_5) with
          | error e =>
            rw [hadd1] at h
            cases h
          | ok state_2 =>
            rw [hadd1] at h
            dsimp only at h
            have hs2v : state_2.lookup k =
                some ((3/4 : ℚ) * v + (1/4 : ℚ) * v) :=
              add_lookup _ _ state_2 k _ _ hadd1 hk
                (multiply_keys_nodup (3/4) state)
                (multiply_lookup (3/4) state k v hk hstate hv)
                (multiply_lookup (1/4) state_1_5 k v hk hs15nd hs15)
            have hs2nd : (Dict.keys state_2).Nodup :=
              add_keys_nodup _ _ state_2 hadd1
            cases hc3 : ab_call e2 prog state_2 dt with
            | error e =>
              rw [hc3] at h
              cases h
            | ok pr3 =>
              obtain ⟨e3, state_2_5⟩ := pr3
              rw [hc3] at h
              dsimp only at h
              have hs25 : state_2_5.lookup k =
                  some ((3/4 : ℚ) * v + (1/4 : ℚ) * v) :=
                ab_call_untouched _ prog state_2 dt _ _ k _ hc3 hs2v
                  (hpk state_2 dt) (fun td htd => (he2tl td htd).1)
              have hs25nd : (Dict.keys state_2_5).Nodup :=
                ab_call_keys_nodup _ prog state_2 dt _ _ hc3
                  (fun td htd => (he2tl td htd).2) (hpnd state_2 dt)
              cases hadd2 : add (multiply (1/3) state)
                  (multiply (2/3) state_2_5) with
              | error e =>
                rw [hadd2] at h
                cases h
              | ok out =>
                rw [hadd2] at h
                dsimp only at h
                have hns : ns = out :=
                  (congrArg Prod.snd (Except.ok.inj h)).symm
                have houtl : out.lookup k = some ((1/3 : ℚ) * v +
                    (2/3 : ℚ) * ((3/4 : ℚ) * v + (1/4 : ℚ) * v)) :=
                  add_lookup _ _ out k _ _ hadd2 hk
                    (multiply_keys_nodup (1/3) state)
                    (multiply_lookup (1/3) state k v hk hstate hv)
                    (multiply_lookup (2/3) state_2_5 k _ hk hs25nd hs25)
                rw [hns, houtl]
                exact congrArg some (by ring)
    · rw [if_neg hs3] at h
      cases h

/-- A recorded timestep accepts itself. -/
theorem ab_ensure_same (m : ABMachine) (dt : ℚ)
    (h : m.timestep = some dt) :
    ab_ensure_constant_timestep m dt = .ok m := by
  unfold ab_ensure_constant_timestep
  rw [h]
  dsimp only
  rw [if_pos rfl]

/-- A recorded leapfrog timestep accepts itself. -/
theorem lf_ensure_same (m : LFMachine) (dt : ℚ)
    (h : m.timestep = some dt) :
    lf_ensure_constant_timestep m dt = .ok m := by
  unfold lf_ensure_constant_timestep
  rw [h]
  dsimp only
  rw [if_pos rfl]

/-! ## Claim C7 -/

/-- C7: every time integrator (Adams-Bashforth, Leapfrog, SSP-Runge-Kutta)
records the timestep of its first call; any later call with a different
timestep raises a `ValueError` with the scheme's constant-timestep
message, while a call with the recorded timestep passes the constancy
check, and a first call simply records the timestep. -/
theorem C7_constant_timestep :
    (∀ (m : ABMachine) (prog : Dict ℚ → ℚ → Dict ℚ) (state : Dict ℚ)
      (t dt : ℚ), m.timestep = some t → dt ≠ t →
      ab_call m prog state dt = .error (.valueError
        "timestep must be constant for Adams-Bashforth time stepping")) ∧
    (∀ (m : LFMachine) (prog : Dict ℚ → ℚ → Dict ℚ) (state : Dict ℚ)
      (t dt : ℚ), m.timestep = some t → dt ≠ t →
      lf_call m prog state dt = .error (.valueError
        "timestep must be constant for Leapfrog time stepping")) ∧
    (∀ (m : SSPMachine) (prog : Dict ℚ → ℚ → Dict ℚ) (state : Dict ℚ)
      (t dt : ℚ), (m.stages = 2 ∨ m.stages = 3) →
      m.euler.timestep = some t → dt ≠ t →
      ssp_call m prog state dt = .error (.valueError
        "timestep must be constant for Adams-Bashforth time stepping")) ∧
    (∀ (m : ABMachine) (dt : ℚ), m.timestep = some dt →
      ab_ensure_constant_timestep m dt = .ok m) ∧
    (∀ (m : LFMachine) (dt : ℚ), m.timestep = some dt →
      lf_ensure_constant_timestep m dt = .ok m) ∧
    (∀ (m : ABMachine) (dt : ℚ), m.timestep = none →
      ab_ensure_constant_timestep m dt =
        .ok ⟨m.order, some dt, m.tendencies_list⟩) ∧
    (∀ (m : LFMachine) (dt : ℚ), m.timestep = none →
      lf_ensure_constant_timestep m dt =
        .ok ⟨m.old_state, m.asselin_strength, some dt, m.alpha⟩) := by
  refine ⟨ab_call_mismatch, lf_call_mismatch,
    fun m prog state t dt hst ht hne =>
      ssp_call_mismatch m prog state t dt hst ht hne,
    ab_ensure_same, lf_ensure_same, ?_, ?_⟩
  · intro m dt ht
    unfold ab_ensure_constant_timestep
    rw [ht]
  · intro m dt ht
    unfold lf_ensure_constant_timestep
    rw [ht]

/-- Witness: concrete mismatching and matching calls for each of the three
schemes. -/
theorem C7_constant_timestep_witness :
    ab_call ⟨4, some 1, []⟩ (fun _ _ => []) [] 2 = .error (.valueError
      "timestep must be constant for Adams-Bashforth time stepping") ∧
    lf_call ⟨none, 1/20, some 1, 1/2⟩ (fun _ _ => []) [] 2 =
      .error (.valueError
        "timestep must be constant for Leapfrog time stepping") ∧
    ssp_call ⟨2, ⟨1, some 1, []⟩⟩ (fun _ _ => []) [] 2 =
      .error (.valueError
        "timestep must be constant for Adams-Bashforth time stepping") ∧
    ab_ensure_constant_timestep ⟨4, some 1, []⟩ 1 = .ok ⟨4, some 1, []⟩ ∧
    lf_ensure_constant_timestep ⟨none, 1/20, some 1, 1/2⟩ 1 =
      .ok ⟨none, 1/20, some 1, 1/2⟩ ∧
    ab_ensure_constant_timestep ⟨4, none, []⟩ 1 = .ok ⟨4, some 1, []⟩ ∧
    lf_ensure_constant_timestep ⟨none, 1/20, none, 1/2⟩ 1 =
      .ok ⟨none, 1/20, some 1, 1/2⟩ :=
  ⟨C7_constant_timestep.1 _ _ _ 1 2 rfl (by norm_num),
   C7_constant_timestep.2.1 _ _ _ 1 2 rfl (by norm_num),
   C7_constant_timestep.2.2.1 _ _ _ 1 2 (Or.inl rfl) rfl (by norm_num),
   C7_constant_timestep.2.2.2.1 _ 1 rfl,
   C7_constant_timestep.2.2.2.2.1 _ 1 rfl,
   C7_constant_timestep.2.2.2.2.2.1 _ 1 rfl,
   C7_constant_timestep.2.2.2.2.2.2 _ 1 rfl⟩

/-! ## Claim C8 -/

/-- C8: in every scheme (forward Euler is order-1 Adams-Bashforth; the
Adams-Bashforth conjunct covers every order, and the SSP conjunct both
stage counts), a quantity present in the pre-step state for which no
tendency is produced appears in the returned new state with its value
unchanged. -/
theorem C8_untouched_quantities_preserved :
    (∀ (m : ABMachine) (prog : Dict ℚ → ℚ → Dict ℚ) (state : Dict ℚ)
      (dt : ℚ) (m' : ABMachine) (ns : Dict ℚ) (k : String) (v : ℚ),
      ab_call m prog state dt = .ok (m', ns) →
      state.lookup k = some v →
      ¬ Dict.hasKey (prog state dt) k = true →
      (∀ td ∈ m.tendencies_list, ¬ Dict.hasKey td k = true) →
      ns.lookup k = some v) ∧
    (∀ (m : LFMachine) (prog : Dict ℚ → ℚ → Dict ℚ) (state : Dict ℚ)
      (dt : ℚ) (m' : LFMachine) (ns : Dict ℚ) (k : String) (v : ℚ),
      lf_call m prog state dt = .ok (m', ns) →
      state.lookup k = some v →
      ¬ Dict.hasKey (prog state dt) k = true →
      ns.lookup k = some v) ∧
    (∀ (m : SSPMachine) (prog : Dict ℚ → ℚ → Dict ℚ) (state : Dict ℚ)
      (dt : ℚ) (m' : SSPMachine) (ns : Dict ℚ) (k : String) (v : ℚ),
      ssp_call m prog state dt = .ok (m', ns) →
      state.lookup k = some v →
      k ≠ "time" →
      (Dict.keys state).Nodup →
      (∀ s t, ¬ Dict.hasKey (prog s t) k = true) →
      (∀ s t, (Dict.keys (prog s t)).Nodup) →
      (∀ td ∈ m.euler.tendencies_list,
        ¬ Dict.hasKey td k = true ∧ (Dict.keys td).Nodup) →
      ns.lookup k = some v) :=
  ⟨ab_call_untouched, lf_call_untouched, ssp_call_untouched⟩

/-- Witness: one concrete call per scheme, each carrying the untouched
quantity `x` through unchanged. -/
theorem C8_untouched_quantities_preserved_witness :
    (ab_call ⟨1, none, []⟩ (fun _ _ => [("y", (1 : ℚ))])
        [("x", 5), ("y", 7)] 1 =
        .ok (⟨1, some 1, []⟩, [("y", 7 + 1 * 1), ("x", 5)]) ∧
      Dict.lookup [("y", (7 : ℚ) + 1 * 1), ("x", 5)] "x" = some 5) ∧
    (lf_call ⟨none, 1/20, none, 1/2⟩
        (fun _ _ => [("y", (1 : ℚ))]) [("x", 5), ("y", 7)] 1 =
        .ok (⟨some [("x", 5), ("y", 7)], 1/20, some 1, 1/2⟩,
          [("y", 7 + 1 * 1), ("x", 5)]) ∧
      Dict.lookup [("y", (7 : ℚ) + 1 * 1), ("x", 5)] "x" = some 5) ∧
    (ssp_call ⟨3, ⟨1, none, []⟩⟩ (fun _ _ => [("y", (1 : ℚ))])
        [("x", 5), ("y", 7)] 1 =
        .ok (⟨3, ⟨1, some 1, []⟩⟩,
          [("x", 1/3 * 5 + 2/3 * (3/4 * 5 + 1/4 * 5)),
           ("y", 1/3 * 7 +
             2/3 * (3/4 * 7 + 1/4 * (7 + 1 * 1 + 1 * 1) + 1 * 1))]) ∧
      Dict.lookup
        [("x", (1 : ℚ)/3 * 5 + 2/3 * (3/4 * 5 + 1/4 * 5)),
         ("y", 1/3 * 7 +
           2/3 * (3/4 * 7 + 1/4 * (7 + 1 * 1 + 1 * 1) + 1 * 1))] "x" =
        some 5) := by
  refine ⟨⟨by rfl, ?_⟩, ⟨by rfl, ?_⟩, ⟨by rfl, ?_⟩⟩
  · exact C8_untouched_quantities_preserved.1 ⟨1, none, []⟩
      (fun _ _ => [("y", 1)]) [("x", 5), ("y", 7)] 1 ⟨1, some 1, []⟩
      [("y", 7 + 1 * 1), ("x", 5)] "x" 5 (by rfl) rfl (by decide)
      (by intro td htd; cases htd)
  · exact C8_untouched_quantities_preserved.2.1 ⟨none, 1/20, none, 1/2⟩
      (fun _ _ => [("y", 1)]) [("x", 5), ("y", 7)] 1
      ⟨some [("x", 5), ("y", 7)], 1/20, some 1, 1/2⟩
      [("y", 7 + 1 * 1), ("x", 5)] "x" 5 (by rfl) rfl (by decide)
  · exact C8_untouched_quantities_preserved.2.2 ⟨3, ⟨1, none, []⟩⟩
      (fun _ _ => [("y", 1)]) [("x", 5), ("y", 7)] 1 ⟨3, ⟨1, some 1, []⟩⟩
      [("x", 1/3 * 5 + 2/3 * (3/4 * 5 + 1/4 * 5)),
       ("y", 1/3 * 7 +
         2/3 * (3/4 * 7 + 1/4 * (7 + 1 * 1 + 1 * 1) + 1 * 1))]
      "x" 5 (by rfl) rfl (by decide) (by decide)
      (by
        intro s t
        show ¬ Dict.hasKey [("y", (1 : ℚ))] "x" = true
        decide)
      (by
        intro s t
        show (Dict.keys [("y", (1 : ℚ))]).Nodup
        decide)
      (by intro td htd; cases htd)

/-! ## Claim C5 -/

/-- C5: an order-4 Adams-Bashforth stepper ramps up through the lower
orders: `_perform_step` dispatches on `min(order, len(tendencies_list))`,
so with one stored tendency it takes the forward-Euler step, with two the
second-order step, with three the third-order step, and with four the
fourth-order step with the standard coefficients; and a concrete four-call
run on a constant-tendency quantity produces exactly the order-1, -2, -3
and -4 updates in turn. -/
theorem C5_adams_bashforth_startup_ramp :
    (∀ (state : Dict ℚ) (ts : Option ℚ) (tl : List (Dict ℚ)) (dt : ℚ),
      (tl.length = 1 → perform_step ⟨4, ts, tl⟩ state dt =
        step_forward_euler state (nthFromEnd tl 1) dt) ∧
      (tl.length = 2 → perform_step ⟨4, ts, tl⟩ state dt =
        second_bashforth state tl dt) ∧
      (tl.length = 3 → perform_step ⟨4, ts, tl⟩ state dt =
        third_bashforth state tl dt) ∧
      (tl.length = 4 → perform_step ⟨4, ts, tl⟩ state dt =
        fourth_bashforth state tl dt)) ∧
    (∀ y0 c dt : ℚ,
      ab_call ⟨4, none, []⟩ (fun _ _ => [("y", c)]) [("y", y0)] dt =
        .ok (⟨4, some dt, [[("y", c)]]⟩, [("y", y0 + c * dt)]) ∧
      ab_call ⟨4, some dt, [[("y", c)]]⟩ (fun _ _ => [("y", c)])
          [("y", y0 + c * dt)] dt =
        .ok (⟨4, some dt, [[("y", c)], [("y", c)]]⟩,
          [("y", y0 + c * dt + dt * (3 / 2 * c - 1 / 2 * c))]) ∧
      ab_call ⟨4, some dt, [[("y", c)], [("y", c)]]⟩ (fun _ _ => [("y", c)])
          [("y", y0 + c * dt + dt * (3 / 2 * c - 1 / 2 * c))] dt =
        .ok (⟨4, some dt, [[("y", c)], [("y", c)], [("y", c)]]⟩,
          [("y", y0 + c * dt + dt * (3 / 2 * c - 1 / 2 * c) +
            dt * (23 / 12 * c - 4 / 3 * c + 5 / 12 * c))]) ∧
      ab_call ⟨4, some dt, [[("y", c)], [("y", c)], [("y", c)]]⟩
          (fun _ _ => [("y", c)])
          [("y", y0 + c * dt + dt * (3 / 2 * c - 1 / 2 * c) +
            dt * (23 / 12 * c - 4 / 3 * c + 5 / 12 * c))] dt =
        .ok (⟨4, some dt, [[("y", c)], [("y", c)], [("y", c)]]⟩,
          [("y", y0 + c * dt + dt * (3 / 2 * c - 1 / 2 * c) +
            dt * (23 / 12 * c - 4 / 3 * c + 5 / 12 * c) +
            dt * (55 / 24 * c - 59 / 24 * c + 37 / 24 * c -
              3 / 8 * c))])) := by
  constructor
  · intro state ts tl dt
    refine ⟨?_, ?_, ?_, ?_⟩
    · intro h
      simp [perform_step, h]
    · intro h
      simp [perform_step, h]
    · intro h
      simp [perform_step, h]
    · intro h
      simp [perform_step, h]
  · intro y0 c dt
    refine ⟨by rfl, ?_, ?_, ?_⟩
    · unfold ab_call
      rw [ab_ensure_same _ dt rfl]
      rfl
    · unfold ab_call
      rw [ab_ensure_same _ dt rfl]
      rfl
    · unfold ab_call
      rw [ab_ensure_same _ dt rfl]
      rfl

/-- Witness: the dispatch equations of the startup ramp at concrete
tendency lists of lengths one to four. -/
theorem C5_adams_bashforth_startup_ramp_witness :
    (perform_step ⟨4, none, [[("y", (2 : ℚ))]]⟩ [("y", (10 : ℚ))] 1 =
      step_forward_euler [("y", (10 : ℚ))]
        (nthFromEnd [[("y", (2 : ℚ))]] 1) 1) ∧
    (perform_step ⟨4, none, [[("y", (2 : ℚ))], [("y", 2)]]⟩
        [("y", (10 : ℚ))] 1 =
      second_bashforth [("y", (10 : ℚ))]
        [[("y", (2 : ℚ))], [("y", 2)]] 1) ∧
    (perform_step ⟨4, none, [[("y", (2 : ℚ))], [("y", 2)], [("y", 2)]]⟩
        [("y", (10 : ℚ))] 1 =
      third_bashforth [("y", (10 : ℚ))]
        [[("y", (2 : ℚ))], [("y", 2)], [("y", 2)]] 1) ∧
    (perform_step
        ⟨4, none, [[("y", (2 : ℚ))], [("y", 2)], [("y", 2)], [("y", 2)]]⟩
        [("y", (10 : ℚ))] 1 =
      fourth_bashforth [("y", (10 : ℚ))]
        [[("y", (2 : ℚ))], [("y", 2)], [("y", 2)], [("y", 2)]] 1) :=
  ⟨(C5_adams_bashforth_startup_ramp.1 _ _ _ _).1 rfl,
   (C5_adams_bashforth_startup_ramp.1 _ _ _ _).2.1 rfl,
   (C5_adams_bashforth_startup_ramp.1 _ _ _ _).2.2.1 rfl,
   (C5_adams_bashforth_startup_ramp.1 _ _ _ _).2.2.2 rfl⟩

/-! ## Claim C6 -/

/-- C6: a single SSP-Runge-Kutta step on a quantity with constant tendency
one returns exactly `y0 + dt`, in both the 2-stage and the 3-stage
configuration (exact rational arithmetic; the blend weights sum to
one). -/
theorem C6_ssp_consistency (y0 dt : ℚ) :
    (∃ m out, ssp_call ⟨2, ⟨1, none, []⟩⟩ (fun _ _ => [("y", 1)])
        [("y", y0)] dt = .ok (m, out) ∧
      out.lookup "y" = some (y0 + dt)) ∧
    (∃ m out, ssp_call ⟨3, ⟨1, none, []⟩⟩ (fun _ _ => [("y", 1)])
        [("y", y0)] dt = .ok (m, out) ∧
      out.lookup "y" = some (y0 + dt)) := by
  have hc1 : ab_call ⟨1, none, []⟩ (fun _ _ => [("y", (1 : ℚ))])
      [("y", y0)] dt = .ok (⟨1, some dt, []⟩, [("y", y0 + 1 * dt)]) := by
    rfl
  have hc2 : ab_call ⟨1, some dt, []⟩ (fun _ _ => [("y", (1 : ℚ))])
      [("y", y0 + 1 * dt)] dt =
      .ok (⟨1, some dt, []⟩, [("y", y0 + 1 * dt + 1 * dt)]) := by
    unfold ab_call
    rw [ab_ensure_same _ dt rfl]
    rfl
  constructor
  · refine ⟨⟨2, ⟨1, some dt, []⟩⟩,
      [("y", 1 / 2 * (y0 + (y0 + 1 * dt + 1 * dt)))], ?_, ?_⟩
    · unfold ssp_call step_2_stages
      dsimp only
      rw [hc1]
      dsimp only
      rw [hc2]
      rfl
    · have hE : (1 : ℚ) / 2 * (y0 + (y0 + 1 * dt + 1 * dt)) = y0 + dt := by
        ring
      rw [← hE]
      rfl
  · have hadd1 : add (multiply (3/4) [("y", y0)])
        (multiply (1/4) [("y", y0 + 1 * dt + 1 * dt)]) =
        .ok [("y", 3 / 4 * y0 + 1 / 4 * (y0 + 1 * dt + 1 * dt))] := by
      rfl
    have hc3 : ab_call ⟨1, some dt, []⟩ (fun _ _ => [("y", (1 : ℚ))])
        [("y", 3 / 4 * y0 + 1 / 4 * (y0 + 1 * dt + 1 * dt))] dt =
        .ok (⟨1, some dt, []⟩,
          [("y", 3 / 4 * y0 + 1 / 4 * (y0 + 1 * dt + 1 * dt) +
            1 * dt)]) := by
      unfold ab_call
      rw [ab_ensure_same _ dt rfl]
      rfl
    refine ⟨⟨3, ⟨1, some dt, []⟩⟩,
      [("y", 1 / 3 * y0 +
        2 / 3 * (3 / 4 * y0 + 1 / 4 * (y0 + 1 * dt + 1 * dt) +
          1 * dt))], ?_, ?_⟩
    · unfold ssp_call step_3_stages
      dsimp only
      rw [hc1]
      dsimp only
      rw [hc2]
      dsimp only
      rw [hadd1]
      dsimp only
      rw [hc3]
      rfl
    · have hE : (1 : ℚ) / 3 * y0 +
          2 / 3 * (3 / 4 * y0 + 1 / 4 * (y0 + 1 * dt + 1 * dt) +
            1 * dt) = y0 + dt := by
        ring
      rw [← hE]
      rfl

/-- Witness: the SSP consistency statement at `y0 = 10`, `dt = 1/4`. -/
theorem C6_ssp_consistency_witness :
    (∃ m out, ssp_call ⟨2, ⟨1, none, []⟩⟩ (fun _ _ => [("y", 1)])
        [("y", (10 : ℚ))] (1/4) = .ok (m, out) ∧
      out.lookup "y" = some (10 + 1/4)) ∧
    (∃ m out, ssp_call ⟨3, ⟨1, none, []⟩⟩ (fun _ _ => [("y", 1)])
        [("y", (10 : ℚ))] (1/4) = .ok (m, out) ∧
      out.lookup "y" = some (10 + 1/4)) :=
  C6_ssp_consistency 10 (1/4)

end Sympl
